import Mathlib

/-!
# A verification development of the committed three-way merge engine

This file gives a shallow embedding of `pkg/graveler/committed/merge.go`:
the data model (keys, value records, ranges), the two-level iterator
contract, the base-seeking helpers `moveBaseToGERange` / `moveBaseToGEKey`,
the four dispatch handlers, the drain handler `handleAll`, and the main
loop `merge`.  Theorems about the spec's claims follow the definitions.

Conventions of the embedding:
* byte strings are `List Nat`, compared lexicographically by `bytesCompare`
  (transliterating `bytes.Compare`);
* an iterator is its remaining two-level suffix (`IPos`); `next`,
  `nextRange` and `value` mirror the `Iterator` interface contract;
* the writer is an output list of `WAction`s; `WriteRange`/`WriteRecord`
  append to it;
* iterator and writer I/O errors do not occur in the pure model (`Err()`
  is always nil), so the error plumbing of the Go code collapses;
* the Go `context.Context` cancellation signal is a polled token: the
  merger consults `cancel : Nat → Bool` at poll index `polls`, exactly at
  the program points where the Go code runs `select { case <-m.ctx.Done() }`;
* Go nil-pointer dereferences (reachable only on iterator states excluded
  by the contract) are modelled by the distinguished error `nilDeref`.
-/

/-- An opaque byte string (key or identity): `bytes.Compare` ordering. -/
abbrev Bytes := List Nat

/-- Transliteration of Go `bytes.Compare` (lexicographic on raw bytes). -/
def bytesCompare : Bytes → Bytes → Ordering
  | [], [] => .eq
  | [], _ :: _ => .lt
  | _ :: _, [] => .gt
  | a :: as, b :: bs =>
      if a < b then .lt else if b < a then .gt else bytesCompare as bs

/-- `graveler.ValueRecord`: a key, the content identity, and the opaque
value blob (carried through untouched). -/
structure ValueRecord where
  key : Bytes
  identity : Bytes
  data : Bytes
deriving DecidableEq, Repr

/-- `committed.Range` header: identity and the key bounds. -/
structure MRange where
  id : String
  minKey : Bytes
  maxKey : Bytes
deriving DecidableEq, Repr

/-- A range together with the records it contains.  The Go writer receives
only the header; emitting the header semantically emits the records, so
the model couples them (invariant 3 of the spec, content addressing). -/
structure RangeData where
  rng : MRange
  recs : List ValueRecord
deriving DecidableEq, Repr

/-- The position of a two-level iterator, carrying the remaining data:
fresh (`start`, before the first `Next`), at a range header, inside a
range at a current record with the rest of the range and the later ranges
remaining, or end-of-stream. -/
inductive IPos where
  | start (rs : List RangeData)
  | header (r : RangeData) (rs : List RangeData)
  | inRange (r : RangeData) (cur : ValueRecord) (rest : List ValueRecord)
      (rs : List RangeData)
  | eos
deriving DecidableEq, Repr

/-- Step to the header of the first of the given ranges (or end-of-stream),
returning the Go boolean of `Next`/`NextRange`. -/
def headerOrEos : List RangeData → Bool × IPos
  | [] => (false, .eos)
  | r :: rs => (true, .header r rs)

/-- `Iterator.Next()`: to the next record of the current range, or to the
next range header once the range is exhausted. -/
def IPos.next : IPos → Bool × IPos
  | .start rs => headerOrEos rs
  | .header r rs =>
      match r.recs with
      | [] => headerOrEos rs
      | v :: vs => (true, .inRange r v vs rs)
  | .inRange r _ (v :: vs) rs => (true, .inRange r v vs rs)
  | .inRange _ _ [] rs => headerOrEos rs
  | .eos => (false, .eos)

/-- `Iterator.NextRange()`: directly to the next range header, skipping
the rest of the current range. -/
def IPos.nextRange : IPos → Bool × IPos
  | .start rs => headerOrEos rs
  | .header _ rs => headerOrEos rs
  | .inRange _ _ _ rs => headerOrEos rs
  | .eos => (false, .eos)

/-- `Iterator.Value()`: `(record?, range?)`; the record is absent at a
range header. -/
def IPos.value : IPos → Option ValueRecord × Option RangeData
  | .header r _ => (none, some r)
  | .inRange r cur _ _ => (some cur, some r)
  | _ => (none, none)

/-- Number of remaining logical positions of a suffix of ranges. -/
def rangesSize (rs : List RangeData) : Nat :=
  (rs.map fun r => r.recs.length + 1).sum

/-- Number of remaining logical positions (termination measure). -/
def IPos.size : IPos → Nat
  | .start rs => rangesSize rs + 1
  | .header r rs => r.recs.length + 1 + rangesSize rs
  | .inRange _ _ rest rs => rest.length + 1 + rangesSize rs
  | .eos => 0

/-- Number of remaining range headers plus one (termination measure for
range-level seeks). -/
def IPos.rleft : IPos → Nat
  | .start rs => rs.length + 1
  | .header _ rs => rs.length + 1
  | .inRange _ _ _ rs => rs.length + 1
  | .eos => 0

theorem headerOrEos_size_le (rs : List RangeData) :
    (headerOrEos rs).2.size ≤ rangesSize rs := by
  cases rs with
  | nil => simp [headerOrEos, IPos.size]
  | cons r rs => simp [headerOrEos, IPos.size, rangesSize]

theorem size_next_lt (p : IPos) (h : p ≠ .eos) :
    (p.next).2.size < p.size := by
  cases p with
  | start rs =>
      calc (headerOrEos rs).2.size ≤ rangesSize rs := headerOrEos_size_le rs
        _ < rangesSize rs + 1 := Nat.lt_succ_self _
  | header r rs =>
      cases hr : r.recs with
      | nil =>
          simp only [IPos.next, hr]
          calc (headerOrEos rs).2.size ≤ rangesSize rs := headerOrEos_size_le rs
            _ < (IPos.header r rs).size := by simp only [IPos.size]; omega
      | cons v vs => simp [IPos.next, hr, IPos.size]
  | inRange r c rest rs =>
      cases rest with
      | nil =>
          simp only [IPos.next]
          calc (headerOrEos rs).2.size ≤ rangesSize rs := headerOrEos_size_le rs
            _ < (IPos.inRange r c [] rs).size := by simp only [IPos.size]; omega
      | cons v vs => simp [IPos.next, IPos.size]
  | eos => exact absurd rfl h

theorem size_nextRange_lt (p : IPos) (h : p ≠ .eos) :
    (p.nextRange).2.size < p.size := by
  cases p with
  | start rs =>
      calc (headerOrEos rs).2.size ≤ rangesSize rs := headerOrEos_size_le rs
        _ < rangesSize rs + 1 := Nat.lt_succ_self _
  | header r rs =>
      simp only [IPos.nextRange]
      calc (headerOrEos rs).2.size ≤ rangesSize rs := headerOrEos_size_le rs
        _ < (IPos.header r rs).size := by simp only [IPos.size]; omega
  | inRange r c rest rs =>
      simp only [IPos.nextRange]
      calc (headerOrEos rs).2.size ≤ rangesSize rs := headerOrEos_size_le rs
        _ < (IPos.inRange r c rest rs).size := by simp only [IPos.size]; omega
  | eos => exact absurd rfl h

theorem rleft_nextRange_lt (p : IPos) (p' : IPos)
    (h : p.nextRange = (true, p')) : p'.rleft < p.rleft := by
  cases p with
  | start rs =>
      cases rs with
      | nil => simp [IPos.nextRange, headerOrEos] at h
      | cons r rs =>
          simp only [IPos.nextRange, headerOrEos, Prod.mk.injEq] at h
          rw [← h.2]
          simp [IPos.rleft]
  | header r rs =>
      cases rs with
      | nil => simp [IPos.nextRange, headerOrEos] at h
      | cons r' rs' =>
          simp only [IPos.nextRange, headerOrEos, Prod.mk.injEq] at h
          rw [← h.2]
          simp [IPos.rleft]
  | inRange r c rest rs =>
      cases rs with
      | nil => simp [IPos.nextRange, headerOrEos] at h
      | cons r' rs' =>
          simp only [IPos.nextRange, headerOrEos, Prod.mk.injEq] at h
          rw [← h.2]
          simp [IPos.rleft]
  | eos => simp [IPos.nextRange] at h

theorem size_next_lt_of_true (p : IPos) (p' : IPos)
    (h : p.next = (true, p')) : p'.size < p.size := by
  have hne : p ≠ .eos := by
    intro he; subst he; simp [IPos.next] at h
  have := size_next_lt p hne
  rw [h] at this; exact this

theorem size_nextRange_lt_of_true (p : IPos) (p' : IPos)
    (h : p.nextRange = (true, p')) : p'.size < p.size := by
  have hne : p ≠ .eos := by
    intro he; subst he; simp [IPos.nextRange] at h
  have := size_nextRange_lt p hne
  rw [h] at this; exact this

/-- `merger.moveBaseToGERange` (merge.go:24): advance the base iterator
forward until the current range's `MaxKey ≥ key`, returning that range,
or `none` once the base is exhausted. -/
def moveBaseToGERange (key : Bytes) (b : IPos) : Option RangeData × IPos :=
  match b.value.2 with
  | some r =>
      if bytesCompare r.rng.maxKey key ≠ Ordering.lt then (some r, b)
      else
        match hn : b.nextRange with
        | (true, b') => moveBaseToGERange key b'
        | (false, b') => (none, b')
  | none =>
      match hn : b.nextRange with
      | (true, b') => moveBaseToGERange key b'
      | (false, b') => (none, b')
termination_by b.rleft
decreasing_by
  · exact rleft_nextRange_lt b b' hn
  · exact rleft_nextRange_lt b b' hn

/-- The scan loop of `merger.moveBaseToGEKey` (merge.go:47-55): advance
within the found base range while the current record's key is `< key`;
return the first record with key `≥ key`, breaking (with `none`) when the
iterator ends or when the scan would leave the range found by
`moveBaseToGERange` (id mismatch).  The Go code reads `innerRange` before
calling `Next`, so the id comparison uses the range of the position the
record was read at. -/
def geKeyScan (key : Bytes) (baseRange : Option RangeData) (b : IPos) :
    Option ValueRecord × IPos :=
  match b.value.1 with
  | some v =>
      if bytesCompare key v.key ≠ Ordering.gt then (some v, b)
      else
        match hn : b.next with
        | (false, b') => (none, b')
        | (true, b') =>
            match b.value.2, baseRange with
            | some irr, some br =>
                if irr.rng.id = br.rng.id then geKeyScan key baseRange b'
                else (none, b')
            | _, _ => (none, b')
  | none =>
      match hn : b.next with
      | (false, b') => (none, b')
      | (true, b') =>
          match b.value.2, baseRange with
          | some irr, some br =>
              if irr.rng.id = br.rng.id then geKeyScan key baseRange b'
              else (none, b')
          | _, _ => (none, b')
termination_by b.size
decreasing_by
  · exact size_next_lt_of_true b b' hn
  · exact size_next_lt_of_true b b' hn

/-- `merger.moveBaseToGEKey` (merge.go:38): return the current base record
when its key is already `≥ key`; otherwise seek the base to the first
range with `MaxKey ≥ key` and scan inside it. -/
def moveBaseToGEKey (key : Bytes) (b : IPos) : Option ValueRecord × IPos :=
  match b.value.1 with
  | some v =>
      if bytesCompare key v.key ≠ Ordering.gt then (some v, b)
      else
        let p := moveBaseToGERange key b
        geKeyScan key p.1 p.2
  | none =>
      let p := moveBaseToGERange key b
      geKeyScan key p.1 p.2

/-- One call accepted by the `MetaRangeWriter`: a whole range
(`WriteRange`) or a single record (`WriteRecord`). -/
inductive WAction where
  | range (rd : RangeData)
  | record (v : ValueRecord)
deriving DecidableEq, Repr

/-- The errors the merger itself produces: `graveler.ErrConflictFound`
(a bare sentinel, carrying no key), context cancellation, and the Go
nil-pointer dereference of contract-violating iterator states. -/
inductive MergeError where
  | conflictFound
  | cancelled
  | nilDeref
deriving DecidableEq, Repr

/-- The `merger` struct state: the three iterators, the `haveSource` /
`haveDest` booleans, the writer output so far, and the cancellation poll
counter. -/
structure MState where
  base : IPos
  source : IPos
  dest : IPos
  haveSource : Bool
  haveDest : Bool
  output : List WAction
  polls : Nat
deriving DecidableEq, Repr

/-- `m.haveSource = m.source.Next()`. -/
def MState.advSource (st : MState) : MState :=
  { st with source := st.source.next.2, haveSource := st.source.next.1 }

/-- `m.haveSource = m.source.NextRange()`. -/
def MState.advSourceRange (st : MState) : MState :=
  { st with source := st.source.nextRange.2, haveSource := st.source.nextRange.1 }

/-- `m.haveDest = m.dest.Next()`. -/
def MState.advDest (st : MState) : MState :=
  { st with dest := st.dest.next.2, haveDest := st.dest.next.1 }

/-- `m.haveDest = m.dest.NextRange()`. -/
def MState.advDestRange (st : MState) : MState :=
  { st with dest := st.dest.nextRange.2, haveDest := st.dest.nextRange.1 }

/-- `m.writeRange` (merge.go:60): `writer.WriteRange(*writeRange)`. -/
def MState.emitRange (st : MState) (rd : RangeData) : MState :=
  { st with output := st.output ++ [WAction.range rd] }

/-- `m.writeRecord` (merge.go:75): `writer.WriteRecord(*writeValue)`. -/
def MState.emitRecord (st : MState) (v : ValueRecord) : MState :=
  { st with output := st.output ++ [WAction.record v] }

/-- Store the base iterator position moved by a lookup helper. -/
def MState.setBase (st : MState) (b : IPos) : MState := { st with base := b }

/-- `merger.handleBothRanges` (merge.go:129): both source and dest are at
the header of a range.  The five cases of the Go switch, in order:
identical ids, source strictly before dest, dest strictly before source,
identical bounds, and overlapping ranges. -/
def handleBothRanges (sourceRange destRange : RangeData) (st : MState) :
    Option MergeError × MState :=
  if sourceRange.rng.id = destRange.rng.id then
    -- range hasn't changed or both added the same range
    (none, ((st.emitRange sourceRange).advSourceRange).advDestRange)
  else if bytesCompare sourceRange.rng.maxKey destRange.rng.minKey = Ordering.lt then
    -- source before dest
    let p := moveBaseToGERange sourceRange.rng.minKey st.base
    let st1 := st.setBase p.2
    match p.1 with
    | some b =>
        if sourceRange.rng.id = b.rng.id then
          -- dest deleted this range
          (none, st1.advSourceRange)
        else if destRange.rng.id = b.rng.id then
          -- source added this range
          (none, (st1.emitRange sourceRange).advSourceRange)
        else
          -- both changed this range
          (none, st1.advSource.advDest)
    | none =>
        -- baseRange == nil: source added this range
        (none, (st1.emitRange sourceRange).advSourceRange)
  else if bytesCompare destRange.rng.maxKey sourceRange.rng.minKey = Ordering.lt then
    -- dest before source
    let p := moveBaseToGERange destRange.rng.minKey st.base
    let st1 := st.setBase p.2
    match p.1 with
    | some b =>
        if sourceRange.rng.id = b.rng.id then
          -- dest added this range
          (none, (st1.emitRange destRange).advDestRange)
        else if destRange.rng.id = b.rng.id then
          -- source deleted this range
          (none, st1.advDestRange)
        else
          -- both changed this range
          (none, st1.advSource.advDest)
    | none =>
        -- baseRange == nil falls into the `source deleted` branch (merge.go:173)
        (none, st1.advDestRange)
  else if sourceRange.rng.minKey = destRange.rng.minKey ∧
      sourceRange.rng.maxKey = destRange.rng.maxKey then
    -- same bounds
    let p := moveBaseToGERange sourceRange.rng.minKey st.base
    let st1 := st.setBase p.2
    match p.1 with
    | some b =>
        if sourceRange.rng.id = b.rng.id ∨ destRange.rng.id = b.rng.id then
          if sourceRange.rng.id = b.rng.id then
            -- dest added changes
            (none, ((st1.emitRange destRange).advSourceRange).advDestRange)
          else
            -- source added changes
            (none, ((st1.emitRange sourceRange).advSourceRange).advDestRange)
        else
          -- enter both ranges
          (none, st1.advSource.advDest)
    | none => (none, st1.advSource.advDest)
  else
    -- ranges overlapping
    (none, st.advSource.advDest)

/-- `merger.handleBothKeys` (merge.go:210): both iterators are inside a
range, positioned at records. -/
def handleBothKeys (sourceValue destValue : ValueRecord) (st : MState) :
    Option MergeError × MState :=
  let c := bytesCompare sourceValue.key destValue.key
  if c = Ordering.lt then
    -- source before dest
    let p := moveBaseToGEKey sourceValue.key st.base
    let st1 := st.setBase p.2
    match p.1 with
    | some b =>
        if sourceValue.identity = b.identity then
          -- dest deleted this record
          (none, st1.advSource)
        else if sourceValue.key = b.key then
          -- deleted by dest and changed by source
          (some .conflictFound, st1)
        else
          -- source added this record
          (none, (st1.emitRecord sourceValue).advSource)
    | none => (none, (st1.emitRecord sourceValue).advSource)
  else if c = Ordering.gt then
    -- dest before source
    let p := moveBaseToGEKey destValue.key st.base
    let st1 := st.setBase p.2
    match p.1 with
    | some b =>
        if destValue.identity = b.identity then
          -- source deleted this record
          (none, st1.advDest)
        else if destValue.key = b.key then
          -- deleted by source added by dest
          (some .conflictFound, st1)
        else
          -- dest added this record
          (none, (st1.emitRecord destValue).advDest)
    | none => (none, (st1.emitRecord destValue).advDest)
  else
    -- identical keys
    let p := moveBaseToGEKey destValue.key st.base
    let st1 := st.setBase p.2
    if sourceValue.identity = destValue.identity then
      -- record hasn't changed or both added the same record
      (none, ((st1.emitRecord sourceValue).advSource).advDest)
    else
      match p.1 with
      | some b =>
          if sourceValue.identity = b.identity then
            (none, ((st1.emitRecord destValue).advSource).advDest)
          else if destValue.identity = b.identity then
            (none, ((st1.emitRecord sourceValue).advSource).advDest)
          else
            -- both changed the same key
            (some .conflictFound, st1)
      | none => (some .conflictFound, st1)

/-- `merger.handleDestRangeSourceKey` (merge.go:286): the source iterator
is inside a range, the dest iterator is at a range header. -/
def handleDestRangeSourceKey (destRange : RangeData) (sourceValue : ValueRecord)
    (st : MState) : Option MergeError × MState :=
  if bytesCompare destRange.rng.minKey sourceValue.key = Ordering.gt then
    -- source before dest range
    let p := moveBaseToGEKey sourceValue.key st.base
    let st1 := st.setBase p.2
    match p.1 with
    | some b =>
        if sourceValue.identity = b.identity then
          -- dest deleted this record
          (none, st1.advSource)
        else if sourceValue.key = b.key then
          -- deleted by dest and changed by source
          (some .conflictFound, st1)
        else
          -- source added this record
          (none, (st1.emitRecord sourceValue).advSource)
    | none => (none, (st1.emitRecord sourceValue).advSource)
  else if bytesCompare destRange.rng.maxKey sourceValue.key = Ordering.lt then
    -- dest range before source
    let p := moveBaseToGERange destRange.rng.minKey st.base
    let st1 := st.setBase p.2
    match p.1 with
    | some b =>
        if destRange.rng.id = b.rng.id then
          -- source deleted this range
          (none, st1.advDestRange)
        else
          -- fall through: enter the dest range
          (none, st1.advDest)
    | none => (none, st1.advDest)
  else
    -- dest is at start of range which we need to scan, enter it
    (none, st.advDest)

/-- `merger.handleSourceRangeDestKey` (merge.go:324): the dest iterator is
inside a range, the source iterator is at a range header.  In the
`source deleted this record` branch the Go code advances the *source*
iterator (`m.haveSource = m.source.Next()`, merge.go:331). -/
def handleSourceRangeDestKey (sourceRange : RangeData) (destValue : ValueRecord)
    (st : MState) : Option MergeError × MState :=
  if bytesCompare sourceRange.rng.minKey destValue.key = Ordering.gt then
    -- dest before source range
    let p := moveBaseToGEKey destValue.key st.base
    let st1 := st.setBase p.2
    match p.1 with
    | some b =>
        if destValue.identity = b.identity then
          -- source deleted this record (Go advances the source iterator here)
          (none, st1.advSource)
        else if destValue.key = b.key then
          -- deleted by source and changed by dest
          (some .conflictFound, st1)
        else
          -- dest added this record
          (none, (st1.emitRecord destValue).advDest)
    | none => (none, (st1.emitRecord destValue).advDest)
  else if bytesCompare sourceRange.rng.maxKey destValue.key = Ordering.lt then
    -- source range before dest
    let p := moveBaseToGERange sourceRange.rng.minKey st.base
    let st1 := st.setBase p.2
    match p.1 with
    | some b =>
        if sourceRange.rng.id = b.rng.id then
          -- dest deleted this range
          (none, st1.advSourceRange)
        else
          -- fall through: enter the source range
          (none, st1.advSource)
    | none => (none, st1.advSource)
  else
    -- source is at start of range which we need to scan, enter it
    (none, st.advSource)

/-- The four-way dispatch of `merger.merge` (merge.go:369-381), reading
`(sourceValue, sourceRange)` and `(destValue, destRange)`.  A handler
invoked with a nil range (possible only on contract-violating iterator
states) dereferences nil in Go; the model returns `nilDeref`. -/
def mergeStep (st : MState) : Option MergeError × MState :=
  match st.source.value, st.dest.value with
  | (none, some sourceRange), (none, some destRange) =>
      handleBothRanges sourceRange destRange st
  | (some sourceValue, _), (none, some destRange) =>
      handleDestRangeSourceKey destRange sourceValue st
  | (none, some sourceRange), (some destValue, _) =>
      handleSourceRangeDestKey sourceRange destValue st
  | (some sourceValue, _), (some destValue, _) =>
      handleBothKeys sourceValue destValue st
  | _, _ => (some .nilDeref, st)

theorem ne_eos_of_value_snd_some {p : IPos} {v : Option ValueRecord}
    {r : RangeData} (h : p.value = (v, some r)) : p ≠ .eos := by
  intro he; subst he; simp [IPos.value] at h

theorem ne_eos_of_value_fst_some {p : IPos} {v : ValueRecord}
    {w : Option RangeData} (h : p.value = (some v, w)) : p ≠ .eos := by
  intro he; subst he; simp [IPos.value] at h

theorem handleBothRanges_dec (sr dr : RangeData) (st st' : MState)
    (hs : st.source ≠ .eos) (hd : st.dest ≠ .eos)
    (h : handleBothRanges sr dr st = (none, st')) :
    st'.source.size + st'.dest.size < st.source.size + st.dest.size := by
  have h1 := size_next_lt st.source hs
  have h2 := size_next_lt st.dest hd
  have h3 := size_nextRange_lt st.source hs
  have h4 := size_nextRange_lt st.dest hd
  simp only [handleBothRanges] at h
  repeat' split at h
  all_goals
    injection h with he h'
  all_goals
    subst h'
  all_goals
    simp only [MState.advSource, MState.advSourceRange, MState.advDest,
      MState.advDestRange, MState.emitRange, MState.emitRecord, MState.setBase]
  all_goals omega

theorem handleBothKeys_dec (sv dv : ValueRecord) (st st' : MState)
    (hs : st.source ≠ .eos) (hd : st.dest ≠ .eos)
    (h : handleBothKeys sv dv st = (none, st')) :
    st'.source.size + st'.dest.size < st.source.size + st.dest.size := by
  have h1 := size_next_lt st.source hs
  have h2 := size_next_lt st.dest hd
  simp only [handleBothKeys] at h
  repeat' split at h
  all_goals
    injection h with he h'
  all_goals
    try simp at he
  all_goals
    subst h'
  all_goals
    simp only [MState.advSource, MState.advSourceRange, MState.advDest,
      MState.advDestRange, MState.emitRange, MState.emitRecord, MState.setBase]
  all_goals omega

theorem handleDestRangeSourceKey_dec (dr : RangeData) (sv : ValueRecord)
    (st st' : MState) (hs : st.source ≠ .eos) (hd : st.dest ≠ .eos)
    (h : handleDestRangeSourceKey dr sv st = (none, st')) :
    st'.source.size + st'.dest.size < st.source.size + st.dest.size := by
  have h1 := size_next_lt st.source hs
  have h2 := size_next_lt st.dest hd
  have h4 := size_nextRange_lt st.dest hd
  simp only [handleDestRangeSourceKey] at h
  repeat' split at h
  all_goals
    injection h with he h'
  all_goals
    try simp at he
  all_goals
    subst h'
  all_goals
    simp only [MState.advSource, MState.advSourceRange, MState.advDest,
      MState.advDestRange, MState.emitRange, MState.emitRecord, MState.setBase]
  all_goals omega

theorem handleSourceRangeDestKey_dec (sr : RangeData) (dv : ValueRecord)
    (st st' : MState) (hs : st.source ≠ .eos) (hd : st.dest ≠ .eos)
    (h : handleSourceRangeDestKey sr dv st = (none, st')) :
    st'.source.size + st'.dest.size < st.source.size + st.dest.size := by
  have h1 := size_next_lt st.source hs
  have h2 := size_next_lt st.dest hd
  have h3 := size_nextRange_lt st.source hs
  simp only [handleSourceRangeDestKey] at h
  repeat' split at h
  all_goals
    injection h with he h'
  all_goals
    try simp at he
  all_goals
    subst h'
  all_goals
    simp only [MState.advSource, MState.advSourceRange, MState.advDest,
      MState.advDestRange, MState.emitRange, MState.emitRecord, MState.setBase]
  all_goals omega

/-- A successful `mergeStep` strictly shrinks the combined remaining size
of the source and dest iterators (every handler branch advances at least
one of them). -/
theorem mergeStep_dec (st st' : MState) (h : mergeStep st = (none, st')) :
    st'.source.size + st'.dest.size < st.source.size + st.dest.size := by
  unfold mergeStep at h
  split at h
  · next heq1 heq2 =>
      exact handleBothRanges_dec _ _ st st' (ne_eos_of_value_snd_some heq1)
        (ne_eos_of_value_snd_some heq2) h
  · next heq1 heq2 =>
      exact handleDestRangeSourceKey_dec _ _ st st' (ne_eos_of_value_fst_some heq1)
        (ne_eos_of_value_snd_some heq2) h
  · next heq1 heq2 =>
      exact handleSourceRangeDestKey_dec _ _ st st' (ne_eos_of_value_snd_some heq1)
        (ne_eos_of_value_fst_some heq2) h
  · next heq1 heq2 =>
      exact handleBothKeys_dec _ _ st st' (ne_eos_of_value_fst_some heq1)
        (ne_eos_of_value_fst_some heq2) h
  · simp at h

/-- The state of the single-sided tail phase: the surviving iterator, the
base iterator, the writer output and the cancellation poll counter. -/
structure DState where
  iter : IPos
  base : IPos
  output : List WAction
  polls : Nat
deriving DecidableEq, Repr

/-- `merger.handleAll` (merge.go:89): drain the one remaining iterator,
reconciling each item against the base.  The cancellation signal is
polled at the top of every loop iteration. -/
def handleAll (cancel : Nat → Bool) (d : DState) : Option MergeError × DState :=
  if cancel d.polls then (some .cancelled, d)
  else
    match d.iter.value with
    | (none, some ir) =>
        let p := moveBaseToGERange ir.rng.minKey d.base
        let out :=
          match p.1 with
          | some b => if b.rng.id ≠ ir.rng.id then d.output ++ [WAction.range ir]
                      else d.output
          | none => d.output ++ [WAction.range ir]
        match hn : d.iter.nextRange with
        | (true, it') => handleAll cancel ⟨it', p.2, out, d.polls + 1⟩
        | (false, it') => (none, ⟨it', p.2, out, d.polls + 1⟩)
    | (some v, _) =>
        let p := moveBaseToGEKey v.key d.base
        let out :=
          match p.1 with
          | some b => if b.identity ≠ v.identity then d.output ++ [WAction.record v]
                      else d.output
          | none => d.output ++ [WAction.record v]
        match hn : d.iter.next with
        | (true, it') => handleAll cancel ⟨it', p.2, out, d.polls + 1⟩
        | (false, it') => (none, ⟨it', p.2, out, d.polls + 1⟩)
    | (none, none) =>
        -- Go dereferences the nil `iterRange` here; unreachable under the
        -- iterator contract
        (some .nilDeref, d)
termination_by d.iter.size
decreasing_by
  · exact size_nextRange_lt_of_true _ _ hn
  · exact size_next_lt_of_true _ _ hn

/-- Copy the result of draining the source side back into the merger
state (the Go `handleAll(m.source)` call mutates `m` in place). -/
def MState.ofDrainSource (st : MState) (d : DState) : MState :=
  { st with source := d.iter, base := d.base, output := d.output, polls := d.polls }

/-- Copy the result of draining the dest side back into the merger
state (the Go `handleAll(m.dest)` call mutates `m` in place). -/
def MState.ofDrainDest (st : MState) (d : DState) : MState :=
  { st with dest := d.iter, base := d.base, output := d.output, polls := d.polls }

/-- `merger.merge` (merge.go:361-407) after the priming `Next`s: the main
loop runs while both sides have items, polling cancellation at the top of
every iteration; then whichever side remains is drained by `handleAll`. -/
def mergeLoop (cancel : Nat → Bool) (st : MState) : Option MergeError × MState :=
  if st.haveSource && st.haveDest then
    if cancel st.polls then (some .cancelled, st)
    else
      match hstep : mergeStep { st with polls := st.polls + 1 } with
      | (some e, st') => (some e, st')
      | (none, st') => mergeLoop cancel st'
  else
    if st.haveSource then
      match handleAll cancel ⟨st.source, st.base, st.output, st.polls⟩ with
      | (some e, d) => (some e, st.ofDrainSource d)
      | (none, d) =>
          let st1 := st.ofDrainSource d
          if st1.haveDest then
            match handleAll cancel ⟨st1.dest, st1.base, st1.output, st1.polls⟩ with
            | (some e, d2) => (some e, st1.ofDrainDest d2)
            | (none, d2) => (none, st1.ofDrainDest d2)
          else (none, st1)
    else if st.haveDest then
      match handleAll cancel ⟨st.dest, st.base, st.output, st.polls⟩ with
      | (some e, d2) => (some e, st.ofDrainDest d2)
      | (none, d2) => (none, st.ofDrainDest d2)
    else (none, st)
termination_by st.source.size + st.dest.size
decreasing_by
  have := mergeStep_dec _ _ hstep
  simpa using this

/-- `committed.Merge` / `merger.merge` (merge.go:409, 361): prime all
three iterators with an initial `Next` (the base's boolean is discarded)
and run the loop.  The result is the Go return value (`none` = nil error)
together with the final merger state, whose `output` lists the writer
calls in order. -/
def mergeRun (cancel : Nat → Bool)
    (baseData sourceData destData : List RangeData) :
    Option MergeError × MState :=
  let s := (IPos.start sourceData).next
  let d := (IPos.start destData).next
  let b := (IPos.start baseData).next
  mergeLoop cancel ⟨b.2, s.2, d.2, s.1, d.1, [], 0⟩

/-! ### One-step unfolding lemmas for the two loops -/

theorem mergeLoop_cancelled_eq (cancel : Nat → Bool) (st : MState)
    (h1 : st.haveSource = true) (h2 : st.haveDest = true)
    (hc : cancel st.polls = true) :
    mergeLoop cancel st = (some .cancelled, st) := by
  rw [mergeLoop.eq_def]; simp [h1, h2, hc]

theorem mergeLoop_cont (cancel : Nat → Bool) (st st' : MState)
    (h1 : st.haveSource = true) (h2 : st.haveDest = true)
    (hc : cancel st.polls = false)
    (hs : mergeStep { st with polls := st.polls + 1 } = (none, st')) :
    mergeLoop cancel st = mergeLoop cancel st' := by
  rw [mergeLoop.eq_def]
  simp only [h1, h2, Bool.and_self, if_true, hc, Bool.false_eq_true, if_false]
  split
  · next e st'' heq => rw [hs] at heq; cases heq
  · next st'' heq => rw [hs] at heq; cases heq; rfl

theorem mergeLoop_err (cancel : Nat → Bool) (st st' : MState) (e : MergeError)
    (h1 : st.haveSource = true) (h2 : st.haveDest = true)
    (hc : cancel st.polls = false)
    (hs : mergeStep { st with polls := st.polls + 1 } = (some e, st')) :
    mergeLoop cancel st = (some e, st') := by
  rw [mergeLoop.eq_def]
  simp only [h1, h2, Bool.and_self, if_true, hc, Bool.false_eq_true, if_false]
  split
  · next e' st'' heq => rw [hs] at heq; cases heq; rfl
  · next st'' heq => rw [hs] at heq; cases heq

theorem mergeLoop_drainS_err (cancel : Nat → Bool) (st : MState) (d : DState)
    (e : MergeError) (h1 : st.haveSource = true) (h2 : st.haveDest = false)
    (hd : handleAll cancel ⟨st.source, st.base, st.output, st.polls⟩ = (some e, d)) :
    mergeLoop cancel st = (some e, st.ofDrainSource d) := by
  rw [mergeLoop.eq_def]
  simp only [h1, h2, Bool.and_false, Bool.false_eq_true, if_false, if_true]
  split
  · next e' d' heq => rw [hd] at heq; cases heq; rfl
  · next d' heq => rw [hd] at heq; cases heq

theorem mergeLoop_drainS_ok (cancel : Nat → Bool) (st : MState) (d : DState)
    (h1 : st.haveSource = true) (h2 : st.haveDest = false)
    (hd : handleAll cancel ⟨st.source, st.base, st.output, st.polls⟩ = (none, d)) :
    mergeLoop cancel st = (none, st.ofDrainSource d) := by
  rw [mergeLoop.eq_def]
  simp only [h1, h2, Bool.and_false, Bool.false_eq_true, if_false, if_true]
  split
  · next e' d' heq => rw [hd] at heq; cases heq
  · next d' heq =>
      rw [hd] at heq; cases heq
      have hD : (st.ofDrainSource d).haveDest = false := h2
      simp only [hD, Bool.false_eq_true, if_false]

theorem mergeLoop_drainD_err (cancel : Nat → Bool) (st : MState) (d : DState)
    (e : MergeError) (h1 : st.haveSource = false) (h2 : st.haveDest = true)
    (hd : handleAll cancel ⟨st.dest, st.base, st.output, st.polls⟩ = (some e, d)) :
    mergeLoop cancel st = (some e, st.ofDrainDest d) := by
  rw [mergeLoop.eq_def]
  simp only [h1, h2, Bool.false_and, Bool.false_eq_true, if_false, if_true]
  split
  · next e' d' heq => rw [hd] at heq; cases heq; rfl
  · next d' heq => rw [hd] at heq; cases heq

theorem mergeLoop_drainD_ok (cancel : Nat → Bool) (st : MState) (d : DState)
    (h1 : st.haveSource = false) (h2 : st.haveDest = true)
    (hd : handleAll cancel ⟨st.dest, st.base, st.output, st.polls⟩ = (none, d)) :
    mergeLoop cancel st = (none, st.ofDrainDest d) := by
  rw [mergeLoop.eq_def]
  simp only [h1, h2, Bool.false_and, Bool.false_eq_true, if_false, if_true]
  split
  · next e' d' heq => rw [hd] at heq; cases heq
  · next d' heq => rw [hd] at heq; cases heq; rfl

theorem mergeLoop_done (cancel : Nat → Bool) (st : MState)
    (h1 : st.haveSource = false) (h2 : st.haveDest = false) :
    mergeLoop cancel st = (none, st) := by
  rw [mergeLoop.eq_def]
  simp [h1, h2]

theorem handleAll_cancel_eq (cancel : Nat → Bool) (d : DState)
    (hc : cancel d.polls = true) :
    handleAll cancel d = (some .cancelled, d) := by
  rw [handleAll.eq_def]; simp [hc]

theorem handleAll_record_cont (cancel : Nat → Bool) (d : DState) (v : ValueRecord)
    (w : Option RangeData) (q : Option ValueRecord × IPos) (out : List WAction)
    (it' : IPos) (hc : cancel d.polls = false) (hv : d.iter.value = (some v, w))
    (hb : moveBaseToGEKey v.key d.base = q)
    (hout : out = (match q.1 with
      | some b => if b.identity ≠ v.identity then d.output ++ [WAction.record v]
                  else d.output
      | none => d.output ++ [WAction.record v]))
    (hn : d.iter.next = (true, it')) :
    handleAll cancel d = handleAll cancel ⟨it', q.2, out, d.polls + 1⟩ := by
  rw [handleAll.eq_def]
  simp only [hc, Bool.false_eq_true, if_false]
  rw [hv]
  simp only [hb, ← hout]
  split
  · next it'' heq => rw [hn] at heq; cases heq; rfl
  · next it'' heq => rw [hn] at heq; cases heq

theorem handleAll_record_stop (cancel : Nat → Bool) (d : DState) (v : ValueRecord)
    (w : Option RangeData) (q : Option ValueRecord × IPos) (out : List WAction)
    (it' : IPos) (hc : cancel d.polls = false) (hv : d.iter.value = (some v, w))
    (hb : moveBaseToGEKey v.key d.base = q)
    (hout : out = (match q.1 with
      | some b => if b.identity ≠ v.identity then d.output ++ [WAction.record v]
                  else d.output
      | none => d.output ++ [WAction.record v]))
    (hn : d.iter.next = (false, it')) :
    handleAll cancel d = (none, ⟨it', q.2, out, d.polls + 1⟩) := by
  rw [handleAll.eq_def]
  simp only [hc, Bool.false_eq_true, if_false]
  rw [hv]
  simp only [hb, ← hout]
  split
  · next it'' heq => rw [hn] at heq; cases heq
  · next it'' heq => rw [hn] at heq; cases heq; rfl

theorem handleAll_range_cont (cancel : Nat → Bool) (d : DState) (ir : RangeData)
    (q : Option RangeData × IPos) (out : List WAction)
    (it' : IPos) (hc : cancel d.polls = false) (hv : d.iter.value = (none, some ir))
    (hb : moveBaseToGERange ir.rng.minKey d.base = q)
    (hout : out = (match q.1 with
      | some b => if b.rng.id ≠ ir.rng.id then d.output ++ [WAction.range ir]
                  else d.output
      | none => d.output ++ [WAction.range ir]))
    (hn : d.iter.nextRange = (true, it')) :
    handleAll cancel d = handleAll cancel ⟨it', q.2, out, d.polls + 1⟩ := by
  rw [handleAll.eq_def]
  simp only [hc, Bool.false_eq_true, if_false]
  rw [hv]
  simp only [hb, ← hout]
  split
  · next it'' heq => rw [hn] at heq; cases heq; rfl
  · next it'' heq => rw [hn] at heq; cases heq

theorem handleAll_range_stop (cancel : Nat → Bool) (d : DState) (ir : RangeData)
    (q : Option RangeData × IPos) (out : List WAction)
    (it' : IPos) (hc : cancel d.polls = false) (hv : d.iter.value = (none, some ir))
    (hb : moveBaseToGERange ir.rng.minKey d.base = q)
    (hout : out = (match q.1 with
      | some b => if b.rng.id ≠ ir.rng.id then d.output ++ [WAction.range ir]
                  else d.output
      | none => d.output ++ [WAction.range ir]))
    (hn : d.iter.nextRange = (false, it')) :
    handleAll cancel d = (none, ⟨it', q.2, out, d.polls + 1⟩) := by
  rw [handleAll.eq_def]
  simp only [hc, Bool.false_eq_true, if_false]
  rw [hv]
  simp only [hb, ← hout]
  split
  · next it'' heq => rw [hn] at heq; cases heq
  · next it'' heq => rw [hn] at heq; cases heq; rfl

/-! ### Basic facts about the byte comparison -/

theorem bytesCompare_self (a : Bytes) : bytesCompare a a = Ordering.eq := by
  induction a with
  | nil => rfl
  | cons x xs ih => simp [bytesCompare, ih]

/-- A conflict returned by a merge step leaves the source and dest
iterators, the booleans and the writer output exactly as they were; only
the base may have been moved by the lookup preceding the detection. -/
theorem mergeStep_conflict_frame (st st' : MState)
    (h : mergeStep st = (some .conflictFound, st')) :
    st'.source = st.source ∧ st'.dest = st.dest ∧
    st'.haveSource = st.haveSource ∧ st'.haveDest = st.haveDest ∧
    st'.output = st.output ∧ st'.polls = st.polls := by
  unfold mergeStep at h
  split at h
  all_goals
    first
    | (simp only [handleBothRanges] at h
       repeat' split at h
       all_goals injection h with he h'
       all_goals try simp at he
       all_goals subst h'
       all_goals simp [MState.setBase])
    | (simp only [handleBothKeys] at h
       repeat' split at h
       all_goals injection h with he h'
       all_goals try simp at he
       all_goals subst h'
       all_goals simp [MState.setBase])
    | (simp only [handleDestRangeSourceKey] at h
       repeat' split at h
       all_goals injection h with he h'
       all_goals try simp at he
       all_goals subst h'
       all_goals simp [MState.setBase])
    | (simp only [handleSourceRangeDestKey] at h
       repeat' split at h
       all_goals injection h with he h'
       all_goals try simp at he
       all_goals subst h'
       all_goals simp [MState.setBase])
    | (injection h with he h'; simp at he)

/-! ### Named inputs used by witnesses and counterexamples -/

/-- The never-fired cancellation token (a context that is never done). -/
def noCancel : Nat → Bool := fun _ => false

/-- The always-fired cancellation token (a context already done). -/
def yesCancel : Nat → Bool := fun _ => true

/-- A one-record range `[0] → [1]` with id `x`. -/
def wRD : RangeData := ⟨⟨"x", [0], [0]⟩, [⟨[0], [1], []⟩]⟩

/-- A merger state with source and dest both at the header of `wRD`. -/
def w10st : MState :=
  ⟨IPos.eos, IPos.header wRD [], IPos.header wRD [], true, true, [], 0⟩

/-- A drain state at the header of `wRD` with an exhausted base. -/
def wDrain : DState := ⟨IPos.header wRD [], IPos.eos, [], 0⟩

/-- C10: when the source and dest iterators are both at range headers with
equal range ids, the merge step emits that range, advances both sides by
`NextRange`, and leaves the base iterator cursor (and poll counter)
completely untouched. -/
theorem c10_sameId_range_copied_base_untouched (st : MState) (sr dr : RangeData)
    (hs : st.source.value = (none, some sr)) (hd : st.dest.value = (none, some dr))
    (hid : sr.rng.id = dr.rng.id) :
    (mergeStep st).1 = none ∧
    (mergeStep st).2.base = st.base ∧
    (mergeStep st).2.output = st.output ++ [WAction.range sr] ∧
    (mergeStep st).2.source = st.source.nextRange.2 ∧
    (mergeStep st).2.haveSource = st.source.nextRange.1 ∧
    (mergeStep st).2.dest = st.dest.nextRange.2 ∧
    (mergeStep st).2.haveDest = st.dest.nextRange.1 ∧
    (mergeStep st).2.polls = st.polls := by
  unfold mergeStep
  rw [hs, hd]
  simp [handleBothRanges, hid, MState.emitRange, MState.advSourceRange,
    MState.advDestRange]

theorem c10_witness :
    (w10st.source.value = (none, some wRD) ∧
      w10st.dest.value = (none, some wRD) ∧ wRD.rng.id = wRD.rng.id) ∧
    ((mergeStep w10st).1 = none ∧
      (mergeStep w10st).2.base = w10st.base ∧
      (mergeStep w10st).2.output = w10st.output ++ [WAction.range wRD] ∧
      (mergeStep w10st).2.source = w10st.source.nextRange.2 ∧
      (mergeStep w10st).2.haveSource = w10st.source.nextRange.1 ∧
      (mergeStep w10st).2.dest = w10st.dest.nextRange.2 ∧
      (mergeStep w10st).2.haveDest = w10st.dest.nextRange.1 ∧
      (mergeStep w10st).2.polls = w10st.polls) :=
  ⟨⟨rfl, rfl, rfl⟩,
    c10_sameId_range_copied_base_untouched w10st wRD wRD rfl rfl rfl⟩

/-- C7: the cancellation token is consulted at the top of every main-loop
iteration and at the top of every drain step; once it reports done, the
merger returns the cancelled result with the state (in particular the
writer output) exactly as it was at the check. -/
theorem c7_cancellation_prompt (cancel : Nat → Bool) (st : MState) (d : DState)
    (h1 : st.haveSource = true) (h2 : st.haveDest = true)
    (hc : cancel st.polls = true) (hcd : cancel d.polls = true) :
    mergeLoop cancel st = (some .cancelled, st) ∧
    handleAll cancel d = (some .cancelled, d) :=
  ⟨mergeLoop_cancelled_eq cancel st h1 h2 hc, handleAll_cancel_eq cancel d hcd⟩

theorem c7_witness :
    (w10st.haveSource = true ∧ w10st.haveDest = true ∧
      yesCancel w10st.polls = true ∧ yesCancel wDrain.polls = true) ∧
    (mergeLoop yesCancel w10st = (some .cancelled, w10st) ∧
      handleAll yesCancel wDrain = (some .cancelled, wDrain)) :=
  ⟨⟨rfl, rfl, rfl, rfl⟩,
    c7_cancellation_prompt yesCancel w10st wDrain rfl rfl rfl rfl⟩

/-- The base range `[0..0]` holding `[0] → [5]` (id `b`). -/
def c2Base : RangeData := ⟨⟨"b", [0], [0]⟩, [⟨[0], [5], []⟩]⟩

/-- The source range `[3..3]` holding `[3] → [9]` (id `s`). -/
def c2Src : RangeData := ⟨⟨"s", [3], [3]⟩, [⟨[3], [9], []⟩]⟩

/-- The dest range `[0..1]` holding `[0] → [5]` and `[1] → [6]` (id `d`). -/
def c2Dst : RangeData := ⟨⟨"d", [0], [1]⟩, [⟨[0], [5], []⟩, ⟨[1], [6], []⟩]⟩

/-- The dest record `[0] → [5]` at which the dest iterator stands. -/
def c2dv : ValueRecord := ⟨[0], [5], []⟩

/-- The merger state reaching `handleSourceRangeDestKey`: the source
iterator at the header of `c2Src`, the dest iterator inside `c2Dst` at
`c2dv` (whose key `[0]` precedes `c2Src.MinKey = [3]`), the base at the
header of `c2Base`, which holds the identical record `[0] → [5]`. -/
def c2State : MState :=
  ⟨IPos.header c2Base [], IPos.header c2Src [],
    IPos.inRange c2Dst c2dv [⟨[1], [6], []⟩] [], true, true, [], 3⟩

/-- C2: evaluation of `handleSourceRangeDestKey` at a state where the
dest record precedes the source range and the ancestor holds the same
key with the same identity.  The Go code (merge.go:331) advances the
*source* iterator and leaves the dest iterator in place; nothing is
written.  The spec says the dest iterator (and not the source iterator)
is advanced. -/
theorem c2_code_advances_source_not_dest :
    (handleSourceRangeDestKey c2Src c2dv c2State).1 = none ∧
    (handleSourceRangeDestKey c2Src c2dv c2State).2.dest = c2State.dest ∧
    (handleSourceRangeDestKey c2Src c2dv c2State).2.haveDest = c2State.haveDest ∧
    (handleSourceRangeDestKey c2Src c2dv c2State).2.output = c2State.output ∧
    (handleSourceRangeDestKey c2Src c2dv c2State).2.source =
      IPos.inRange c2Src ⟨[3], [9], []⟩ [] [] ∧
    (handleSourceRangeDestKey c2Src c2dv c2State).2.source ≠ c2State.source := by
  have h : handleSourceRangeDestKey c2Src c2dv c2State =
      (none, { c2State with
        base := IPos.inRange c2Base ⟨[0], [5], []⟩ [] [],
        source := IPos.inRange c2Src ⟨[3], [9], []⟩ [] [],
        haveSource := true }) := by
    simp [handleSourceRangeDestKey, moveBaseToGEKey, moveBaseToGERange, geKeyScan,
      c2Src, c2Base, c2dv, c2State, IPos.next, IPos.nextRange, IPos.value,
      headerOrEos, bytesCompare, MState.advSource, MState.setBase, MState.emitRecord]
  rw [h]
  refine ⟨rfl, rfl, rfl, rfl, rfl, ?_⟩
  simp [c2State, c2Src]

/-- The source range `[2..2]` holding `[2] → [7]` (id `s`). -/
def c1Src : RangeData := ⟨⟨"s", [2], [2]⟩, [⟨[2], [7], []⟩]⟩

/-- The dest range `[0..0]` holding `[0] → [9]` (id `d`), strictly before
`c1Src`. -/
def c1Dst : RangeData := ⟨⟨"d", [0], [0]⟩, [⟨[0], [9], []⟩]⟩

/-- C1: full-run evaluation at the failing input: the base is empty, the
dest range `c1Dst` (an addition by dest) lies strictly before the source
range `c1Src`.  The base lookup over `c1Dst.MinKey` returns no range, and
the code (merge.go:173) takes the no-emit branch: the run succeeds but
the output holds only the source range — the dest-added range was
silently dropped, where the spec requires it to be emitted whole. -/
theorem c1_baseNil_drops_dest_added_range :
    (mergeRun noCancel [] [c1Src] [c1Dst]).1 = none ∧
    (mergeRun noCancel [] [c1Src] [c1Dst]).2.output = [WAction.range c1Src] := by
  have e0 : mergeRun noCancel [] [c1Src] [c1Dst] =
      mergeLoop noCancel ⟨IPos.eos, IPos.header c1Src [], IPos.header c1Dst [],
        true, true, [], 0⟩ := by
    simp [mergeRun, IPos.next, headerOrEos]
  have e1 : mergeStep ⟨IPos.eos, IPos.header c1Src [], IPos.header c1Dst [],
      true, true, [], 1⟩ =
      (none, ⟨IPos.eos, IPos.header c1Src [], IPos.eos, true, false, [], 1⟩) := by
    simp [mergeStep, handleBothRanges, moveBaseToGERange, c1Src, c1Dst,
      IPos.next, IPos.nextRange, IPos.value, headerOrEos, bytesCompare,
      MState.advSource, MState.advSourceRange, MState.advDest, MState.advDestRange,
      MState.emitRange, MState.setBase]
  have e2 : handleAll noCancel ⟨IPos.header c1Src [], IPos.eos, [], 1⟩ =
      (none, ⟨IPos.eos, IPos.eos, [WAction.range c1Src], 2⟩) := by
    have hb : moveBaseToGERange c1Src.rng.minKey IPos.eos = (none, IPos.eos) := by
      simp [moveBaseToGERange, IPos.value, IPos.nextRange]
    have := handleAll_range_stop noCancel ⟨IPos.header c1Src [], IPos.eos, [], 1⟩
      c1Src (none, IPos.eos) [WAction.range c1Src] IPos.eos rfl rfl hb (by simp) rfl
    simpa using this
  rw [e0, mergeLoop_cont noCancel _ _ rfl rfl rfl e1,
    mergeLoop_drainS_ok noCancel _ _ rfl rfl e2]
  exact ⟨rfl, rfl⟩

/-- Source range for conflict run A: the single added record `[0] → [1]`. -/
def c5SrcA : RangeData := ⟨⟨"s", [0], [0]⟩, [⟨[0], [1], []⟩]⟩

/-- Dest range for conflict run A: the single added record `[0] → [2]`. -/
def c5DstA : RangeData := ⟨⟨"d", [0], [0]⟩, [⟨[0], [2], []⟩]⟩

/-- Source range for conflict run B: the single added record `[5] → [1]`. -/
def c5SrcB : RangeData := ⟨⟨"s", [5], [5]⟩, [⟨[5], [1], []⟩]⟩

/-- Dest range for conflict run B: the single added record `[5] → [2]`. -/
def c5DstB : RangeData := ⟨⟨"d", [5], [5]⟩, [⟨[5], [2], []⟩]⟩

/-- C5 counterexample: two merge runs over an empty base that conflict at
*different* keys (`[0]` in run A, `[5]` in run B) return *equal* results:
the bare `graveler.ErrConflictFound` sentinel.  The returned conflict
value therefore carries no offending key, contradicting the claim that the
conflict result has the offending key attached. -/
theorem c5_counterexample_no_key_attached :
    (mergeRun noCancel [] [c5SrcA] [c5DstA]).1 = some .conflictFound ∧
    (mergeRun noCancel [] [c5SrcB] [c5DstB]).1 = some .conflictFound ∧
    (mergeRun noCancel [] [c5SrcA] [c5DstA]).1 =
      (mergeRun noCancel [] [c5SrcB] [c5DstB]).1 ∧
    c5SrcA.recs.map ValueRecord.key ≠ c5SrcB.recs.map ValueRecord.key := by
  have eA : (mergeRun noCancel [] [c5SrcA] [c5DstA]).1 = some .conflictFound := by
    have e0 : mergeRun noCancel [] [c5SrcA] [c5DstA] =
        mergeLoop noCancel ⟨IPos.eos, IPos.header c5SrcA [], IPos.header c5DstA [],
          true, true, [], 0⟩ := by
      simp [mergeRun, IPos.next, headerOrEos]
    have e1 : mergeStep ⟨IPos.eos, IPos.header c5SrcA [], IPos.header c5DstA [],
        true, true, [], 1⟩ =
        (none, ⟨IPos.eos, IPos.inRange c5SrcA ⟨[0], [1], []⟩ [] [],
          IPos.inRange c5DstA ⟨[0], [2], []⟩ [] [], true, true, [], 1⟩) := by
      simp [mergeStep, handleBothRanges, moveBaseToGERange, c5SrcA, c5DstA,
        IPos.next, IPos.nextRange, IPos.value, headerOrEos, bytesCompare,
        MState.advSource, MState.advSourceRange, MState.advDest, MState.advDestRange,
        MState.emitRange, MState.setBase]
    have e2 : mergeStep ⟨IPos.eos, IPos.inRange c5SrcA ⟨[0], [1], []⟩ [] [],
        IPos.inRange c5DstA ⟨[0], [2], []⟩ [] [], true, true, [], 2⟩ =
        (some .conflictFound, ⟨IPos.eos, IPos.inRange c5SrcA ⟨[0], [1], []⟩ [] [],
          IPos.inRange c5DstA ⟨[0], [2], []⟩ [] [], true, true, [], 2⟩) := by
      simp [mergeStep, handleBothKeys, moveBaseToGEKey, moveBaseToGERange, geKeyScan,
        c5SrcA, c5DstA, IPos.next, IPos.nextRange, IPos.value, headerOrEos,
        bytesCompare, MState.advSource, MState.advDest, MState.emitRecord,
        MState.setBase]
    rw [e0, mergeLoop_cont noCancel _ _ rfl rfl rfl e1,
      mergeLoop_err noCancel _ _ _ rfl rfl rfl e2]
  have eB : (mergeRun noCancel [] [c5SrcB] [c5DstB]).1 = some .conflictFound := by
    have e0 : mergeRun noCancel [] [c5SrcB] [c5DstB] =
        mergeLoop noCancel ⟨IPos.eos, IPos.header c5SrcB [], IPos.header c5DstB [],
          true, true, [], 0⟩ := by
      simp [mergeRun, IPos.next, headerOrEos]
    have e1 : mergeStep ⟨IPos.eos, IPos.header c5SrcB [], IPos.header c5DstB [],
        true, true, [], 1⟩ =
        (none, ⟨IPos.eos, IPos.inRange c5SrcB ⟨[5], [1], []⟩ [] [],
          IPos.inRange c5DstB ⟨[5], [2], []⟩ [] [], true, true, [], 1⟩) := by
      simp [mergeStep, handleBothRanges, moveBaseToGERange, c5SrcB, c5DstB,
        IPos.next, IPos.nextRange, IPos.value, headerOrEos, bytesCompare,
        MState.advSource, MState.advSourceRange, MState.advDest, MState.advDestRange,
        MState.emitRange, MState.setBase]
    have e2 : mergeStep ⟨IPos.eos, IPos.inRange c5SrcB ⟨[5], [1], []⟩ [] [],
        IPos.inRange c5DstB ⟨[5], [2], []⟩ [] [], true, true, [], 2⟩ =
        (some .conflictFound, ⟨IPos.eos, IPos.inRange c5SrcB ⟨[5], [1], []⟩ [] [],
          IPos.inRange c5DstB ⟨[5], [2], []⟩ [] [], true, true, [], 2⟩) := by
      simp [mergeStep, handleBothKeys, moveBaseToGEKey, moveBaseToGERange, geKeyScan,
        c5SrcB, c5DstB, IPos.next, IPos.nextRange, IPos.value, headerOrEos,
        bytesCompare, MState.advSource, MState.advDest, MState.emitRecord,
        MState.setBase]
    rw [e0, mergeLoop_cont noCancel _ _ rfl rfl rfl e1,
      mergeLoop_err noCancel _ _ _ rfl rfl rfl e2]
  refine ⟨eA, eB, eA.trans eB.symm, by simp [c5SrcA, c5SrcB]⟩

/-- C5 (amended): when a main-loop step detects a conflict, the merge
halts immediately with the bare conflict sentinel (no key attached): the
loop returns at once, with the writer output, the source and dest
iterators and the booleans exactly as they were at the detection. -/
theorem c5_amended_conflict_halts (cancel : Nat → Bool) (st st' : MState)
    (h1 : st.haveSource = true) (h2 : st.haveDest = true)
    (hc : cancel st.polls = false)
    (hs : mergeStep { st with polls := st.polls + 1 } = (some .conflictFound, st')) :
    mergeLoop cancel st = (some .conflictFound, st') ∧
    st'.output = st.output ∧ st'.source = st.source ∧ st'.dest = st.dest ∧
    st'.haveSource = st.haveSource ∧ st'.haveDest = st.haveDest := by
  have hf := mergeStep_conflict_frame _ _ hs
  exact ⟨mergeLoop_err cancel st st' _ h1 h2 hc hs, hf.2.2.2.2.1, hf.1, hf.2.1,
    hf.2.2.1, hf.2.2.2.1⟩

/-- The state of the conflict run A at the detection point. -/
def c5wSt : MState :=
  ⟨IPos.eos, IPos.inRange c5SrcA ⟨[0], [1], []⟩ [] [],
    IPos.inRange c5DstA ⟨[0], [2], []⟩ [] [], true, true, [], 1⟩

theorem c5_witness :
    (c5wSt.haveSource = true ∧ c5wSt.haveDest = true ∧
      noCancel c5wSt.polls = false ∧
      mergeStep { c5wSt with polls := c5wSt.polls + 1 } =
        (some .conflictFound, { c5wSt with base := IPos.eos, polls := 2 })) ∧
    (mergeLoop noCancel c5wSt =
        (some .conflictFound, { c5wSt with base := IPos.eos, polls := 2 }) ∧
      ({ c5wSt with base := IPos.eos, polls := 2 } : MState).output = c5wSt.output ∧
      ({ c5wSt with base := IPos.eos, polls := 2 } : MState).source = c5wSt.source ∧
      ({ c5wSt with base := IPos.eos, polls := 2 } : MState).dest = c5wSt.dest ∧
      ({ c5wSt with base := IPos.eos, polls := 2 } : MState).haveSource = c5wSt.haveSource ∧
      ({ c5wSt with base := IPos.eos, polls := 2 } : MState).haveDest = c5wSt.haveDest) := by
  have hs : mergeStep { c5wSt with polls := c5wSt.polls + 1 } =
      (some .conflictFound, { c5wSt with base := IPos.eos, polls := 2 }) := by
    simp [mergeStep, handleBothKeys, moveBaseToGEKey, moveBaseToGERange, geKeyScan,
      c5SrcA, c5DstA, c5wSt, IPos.next, IPos.nextRange, IPos.value, headerOrEos,
      bytesCompare, MState.advSource, MState.advDest, MState.emitRecord,
      MState.setBase]
  exact ⟨⟨rfl, rfl, rfl, hs⟩,
    c5_amended_conflict_halts noCancel c5wSt _ rfl rfl rfl hs⟩

/-- The base range `[2..2]` holding `[2] → [7]` (id `q`); it has no record
at key `[1]`. -/
def c4Base : RangeData := ⟨⟨"q", [2], [2]⟩, [⟨[2], [7], []⟩]⟩

/-- The source range `[1..2]`: source added `[1] → [7]` (same identity as
the base record at the *larger* key `[2]`) and kept `[2] → [7]`. -/
def c4Src : RangeData := ⟨⟨"s", [1], [2]⟩, [⟨[1], [7], []⟩, ⟨[2], [7], []⟩]⟩

/-- The dest range `[1..2]`: dest added `[1] → [8]` and kept `[2] → [7]`. -/
def c4Dst : RangeData := ⟨⟨"d", [1], [2]⟩, [⟨[1], [8], []⟩, ⟨[2], [7], []⟩]⟩

/-- C4 counterexample: source and dest both stand at key `[1]` with
different identities (`[7]` vs `[8]`) and the ancestor holds no record
with key `[1]` — the claim demands a conflict.  The run instead succeeds:
the base GE-lookup lands on `[2] → [7]` (a larger key), its identity
matches the source record, and the code emits the dest record. -/
theorem c4_counterexample_no_conflict :
    (mergeRun noCancel [c4Base] [c4Src] [c4Dst]).1 = none ∧
    (mergeRun noCancel [c4Base] [c4Src] [c4Dst]).2.output =
      [WAction.record ⟨[1], [8], []⟩, WAction.record ⟨[2], [7], []⟩] ∧
    (∀ r ∈ c4Base.recs, r.key ≠ [1]) := by
  have e0 : mergeRun noCancel [c4Base] [c4Src] [c4Dst] =
      mergeLoop noCancel ⟨IPos.header c4Base [], IPos.header c4Src [],
        IPos.header c4Dst [], true, true, [], 0⟩ := by
    simp [mergeRun, IPos.next, headerOrEos, c4Base, c4Src, c4Dst]
  have e1 : mergeStep ⟨IPos.header c4Base [], IPos.header c4Src [],
      IPos.header c4Dst [], true, true, [], 1⟩ =
      (none, ⟨IPos.header c4Base [],
        IPos.inRange c4Src ⟨[1], [7], []⟩ [⟨[2], [7], []⟩] [],
        IPos.inRange c4Dst ⟨[1], [8], []⟩ [⟨[2], [7], []⟩] [], true, true, [], 1⟩) := by
    simp [mergeStep, handleBothRanges, moveBaseToGERange, c4Base, c4Src, c4Dst,
      IPos.next, IPos.nextRange, IPos.value, headerOrEos, bytesCompare,
      MState.advSource, MState.advSourceRange, MState.advDest, MState.advDestRange,
      MState.emitRange, MState.setBase]
  have e2 : mergeStep ⟨IPos.header c4Base [],
      IPos.inRange c4Src ⟨[1], [7], []⟩ [⟨[2], [7], []⟩] [],
      IPos.inRange c4Dst ⟨[1], [8], []⟩ [⟨[2], [7], []⟩] [], true, true, [], 2⟩ =
      (none, ⟨IPos.inRange c4Base ⟨[2], [7], []⟩ [] [],
        IPos.inRange c4Src ⟨[2], [7], []⟩ [] [],
        IPos.inRange c4Dst ⟨[2], [7], []⟩ [] [], true, true,
        [WAction.record ⟨[1], [8], []⟩], 2⟩) := by
    simp [mergeStep, handleBothKeys, moveBaseToGEKey, moveBaseToGERange, geKeyScan,
      c4Base, c4Src, c4Dst, IPos.next, IPos.nextRange, IPos.value, headerOrEos,
      bytesCompare, MState.advSource, MState.advDest, MState.emitRecord,
      MState.setBase]
  have e3 : mergeStep ⟨IPos.inRange c4Base ⟨[2], [7], []⟩ [] [],
      IPos.inRange c4Src ⟨[2], [7], []⟩ [] [],
      IPos.inRange c4Dst ⟨[2], [7], []⟩ [] [], true, true,
      [WAction.record ⟨[1], [8], []⟩], 3⟩ =
      (none, ⟨IPos.inRange c4Base ⟨[2], [7], []⟩ [] [], IPos.eos, IPos.eos,
        false, false,
        [WAction.record ⟨[1], [8], []⟩, WAction.record ⟨[2], [7], []⟩], 3⟩) := by
    simp [mergeStep, handleBothKeys, moveBaseToGEKey, moveBaseToGERange, geKeyScan,
      c4Base, c4Src, c4Dst, IPos.next, IPos.nextRange, IPos.value, headerOrEos,
      bytesCompare, MState.advSource, MState.advDest, MState.emitRecord,
      MState.setBase]
  rw [e0, mergeLoop_cont noCancel _ _ rfl rfl rfl e1,
    mergeLoop_cont noCancel _ _ rfl rfl rfl e2,
    mergeLoop_cont noCancel _ _ rfl rfl rfl e3,
    mergeLoop_done noCancel _ rfl rfl]
  refine ⟨rfl, rfl, ?_⟩
  simp [c4Base]

/-- C4 (amended): with source and dest at the same key with differing
identities, the merger reports a conflict — provided the base GE-lookup
at that key returns no record, or a record whose identity differs from
both sides (in particular this covers a present ancestor record at that
key with a third identity); when the GE record (possibly at a larger key)
shares an identity with one side, the code emits the other side instead. -/
theorem c4_amended_conflict (sv dv : ValueRecord) (st : MState)
    (q : Option ValueRecord × IPos)
    (hk : sv.key = dv.key) (hid : sv.identity ≠ dv.identity)
    (hb : moveBaseToGEKey dv.key st.base = q)
    (hmiss : ∀ b, q.1 = some b → sv.identity ≠ b.identity ∧ dv.identity ≠ b.identity) :
    handleBothKeys sv dv st = (some .conflictFound, st.setBase q.2) ∧
    (handleBothKeys sv dv st).2.output = st.output := by
  have hc : bytesCompare sv.key dv.key = Ordering.eq := by
    rw [hk]; exact bytesCompare_self _
  have hmain : handleBothKeys sv dv st = (some .conflictFound, st.setBase q.2) := by
    unfold handleBothKeys
    rw [hc]
    simp only [reduceCtorEq, if_false, hb, hid, if_neg, ite_false]
    cases hq : q.1 with
    | none => simp
    | some b =>
        have := hmiss b hq
        simp [this.1, this.2]
  exact ⟨hmain, by rw [hmain]; rfl⟩

theorem c4_witness :
    ((⟨[0], [1], []⟩ : ValueRecord).key = (⟨[0], [2], []⟩ : ValueRecord).key ∧
      (⟨[0], [1], []⟩ : ValueRecord).identity ≠ (⟨[0], [2], []⟩ : ValueRecord).identity ∧
      moveBaseToGEKey (⟨[0], [2], []⟩ : ValueRecord).key c5wSt.base =
        ((none : Option ValueRecord), IPos.eos) ∧
      (∀ b, ((none : Option ValueRecord), IPos.eos).1 = some b →
        (⟨[0], [1], []⟩ : ValueRecord).identity ≠ b.identity ∧
          (⟨[0], [2], []⟩ : ValueRecord).identity ≠ b.identity)) ∧
    (handleBothKeys ⟨[0], [1], []⟩ ⟨[0], [2], []⟩ c5wSt =
        (some .conflictFound, c5wSt.setBase IPos.eos) ∧
      (handleBothKeys ⟨[0], [1], []⟩ ⟨[0], [2], []⟩ c5wSt).2.output = c5wSt.output) := by
  have hb : moveBaseToGEKey ([0] : Bytes) c5wSt.base =
      ((none : Option ValueRecord), IPos.eos) := by
    simp [moveBaseToGEKey, moveBaseToGERange, geKeyScan, c5wSt, IPos.value,
      IPos.next, IPos.nextRange]
  refine ⟨⟨rfl, by simp, hb, by simp⟩, ?_⟩
  exact c4_amended_conflict ⟨[0], [1], []⟩ ⟨[0], [2], []⟩ c5wSt
    ((none : Option ValueRecord), IPos.eos) rfl (by simp) hb (by simp)

/-- C9 (amended): every step of the drain phase reconciles the current
item of the surviving side against the base and continues with the rest:
a record whose base GE-lookup (`moveBaseToGEKey`, which never compares
keys for equality and so may land on a strictly larger key) yields an
identical identity is skipped (no write); a record whose lookup misses or
differs is written; a whole range whose base lookup finds the same range
id is skipped; a range the base lacks, or holds under a different id, is
written whole.  In each case the iterator advances (`Next` for records,
`NextRange` for ranges) and the loop proceeds, stopping when the iterator
is exhausted. -/
theorem c9_drain_reconciles_all (cancel : Nat → Bool) (d : DState)
    (hc : cancel d.polls = false) :
    (∀ v w q b it' nf, d.iter.value = (some v, w) →
        moveBaseToGEKey v.key d.base = q → q.1 = some b →
        b.identity = v.identity → d.iter.next = (nf, it') →
        handleAll cancel d =
          (if nf then handleAll cancel ⟨it', q.2, d.output, d.polls + 1⟩
           else (none, ⟨it', q.2, d.output, d.polls + 1⟩))) ∧
    (∀ v w q it' nf, d.iter.value = (some v, w) →
        moveBaseToGEKey v.key d.base = q → q.1 = none →
        d.iter.next = (nf, it') →
        handleAll cancel d =
          (if nf then
            handleAll cancel ⟨it', q.2, d.output ++ [WAction.record v], d.polls + 1⟩
           else (none, ⟨it', q.2, d.output ++ [WAction.record v], d.polls + 1⟩))) ∧
    (∀ v w q b it' nf, d.iter.value = (some v, w) →
        moveBaseToGEKey v.key d.base = q → q.1 = some b →
        b.identity ≠ v.identity → d.iter.next = (nf, it') →
        handleAll cancel d =
          (if nf then
            handleAll cancel ⟨it', q.2, d.output ++ [WAction.record v], d.polls + 1⟩
           else (none, ⟨it', q.2, d.output ++ [WAction.record v], d.polls + 1⟩))) ∧
    (∀ ir q b it' nf, d.iter.value = (none, some ir) →
        moveBaseToGERange ir.rng.minKey d.base = q → q.1 = some b →
        b.rng.id = ir.rng.id → d.iter.nextRange = (nf, it') →
        handleAll cancel d =
          (if nf then handleAll cancel ⟨it', q.2, d.output, d.polls + 1⟩
           else (none, ⟨it', q.2, d.output, d.polls + 1⟩))) ∧
    (∀ ir q it' nf, d.iter.value = (none, some ir) →
        moveBaseToGERange ir.rng.minKey d.base = q → q.1 = none →
        d.iter.nextRange = (nf, it') →
        handleAll cancel d =
          (if nf then
            handleAll cancel ⟨it', q.2, d.output ++ [WAction.range ir], d.polls + 1⟩
           else (none, ⟨it', q.2, d.output ++ [WAction.range ir], d.polls + 1⟩))) ∧
    (∀ ir q b it' nf, d.iter.value = (none, some ir) →
        moveBaseToGERange ir.rng.minKey d.base = q → q.1 = some b →
        b.rng.id ≠ ir.rng.id → d.iter.nextRange = (nf, it') →
        handleAll cancel d =
          (if nf then
            handleAll cancel ⟨it', q.2, d.output ++ [WAction.range ir], d.polls + 1⟩
           else (none, ⟨it', q.2, d.output ++ [WAction.range ir], d.polls + 1⟩))) := by
  refine ⟨?_, ?_, ?_, ?_, ?_, ?_⟩
  · intro v w q b it' nf hv hb hq hid hn
    cases nf with
    | true =>
        simp only [if_true]
        exact handleAll_record_cont cancel d v w q d.output it' hc hv hb
          (by rw [hq]; simp [hid]) hn
    | false =>
        simp only [Bool.false_eq_true, if_false]
        exact handleAll_record_stop cancel d v w q d.output it' hc hv hb
          (by rw [hq]; simp [hid]) hn
  · intro v w q it' nf hv hb hq hn
    cases nf with
    | true =>
        simp only [if_true]
        exact handleAll_record_cont cancel d v w q _ it' hc hv hb (by rw [hq]) hn
    | false =>
        simp only [Bool.false_eq_true, if_false]
        exact handleAll_record_stop cancel d v w q _ it' hc hv hb (by rw [hq]) hn
  · intro v w q b it' nf hv hb hq hid hn
    cases nf with
    | true =>
        simp only [if_true]
        exact handleAll_record_cont cancel d v w q _ it' hc hv hb
          (by rw [hq]; simp [hid]) hn
    | false =>
        simp only [Bool.false_eq_true, if_false]
        exact handleAll_record_stop cancel d v w q _ it' hc hv hb
          (by rw [hq]; simp [hid]) hn
  · intro ir q b it' nf hv hb hq hid hn
    cases nf with
    | true =>
        simp only [if_true]
        exact handleAll_range_cont cancel d ir q d.output it' hc hv hb
          (by rw [hq]; simp [hid]) hn
    | false =>
        simp only [Bool.false_eq_true, if_false]
        exact handleAll_range_stop cancel d ir q d.output it' hc hv hb
          (by rw [hq]; simp [hid]) hn
  · intro ir q it' nf hv hb hq hn
    cases nf with
    | true =>
        simp only [if_true]
        exact handleAll_range_cont cancel d ir q _ it' hc hv hb (by rw [hq]) hn
    | false =>
        simp only [Bool.false_eq_true, if_false]
        exact handleAll_range_stop cancel d ir q _ it' hc hv hb (by rw [hq]) hn
  · intro ir q b it' nf hv hb hq hid hn
    cases nf with
    | true =>
        simp only [if_true]
        exact handleAll_range_cont cancel d ir q _ it' hc hv hb
          (by rw [hq]; simp [hid]) hn
    | false =>
        simp only [Bool.false_eq_true, if_false]
        exact handleAll_range_stop cancel d ir q _ it' hc hv hb
          (by rw [hq]; simp [hid]) hn

/-- A drain state inside `wRD` at its only record, with an exhausted base. -/
def c9wD : DState := ⟨IPos.inRange wRD ⟨[0], [1], []⟩ [] [], IPos.eos, [], 0⟩

theorem c9_witness :
    (noCancel c9wD.polls = false) ∧
    handleAll noCancel c9wD =
      (none, ⟨IPos.eos, IPos.eos, [WAction.record ⟨[0], [1], []⟩], 1⟩) := by
  have hb : moveBaseToGEKey ([0] : Bytes) IPos.eos =
      ((none : Option ValueRecord), IPos.eos) := by
    simp [moveBaseToGEKey, moveBaseToGERange, geKeyScan, IPos.value, IPos.next,
      IPos.nextRange]
  have h := ((c9_drain_reconciles_all noCancel c9wD rfl).2.1) ⟨[0], [1], []⟩
    (some wRD) ((none : Option ValueRecord), IPos.eos) IPos.eos false rfl hb rfl rfl
  exact ⟨rfl, by simpa [c9wD] using h⟩

/-- C9 counterexample ancestor: a single range holding only `[2] → [10]`;
in particular the ancestor has no record with key `[1]`. -/
def c9xBase : RangeData := ⟨⟨"q", [2], [2]⟩, [⟨[2], [10], []⟩]⟩

/-- C9 counterexample source: the surviving side, with the added record
`[1] → [10]` (its identity happens to equal the ancestor record at the
*larger* key `[2]`) followed by `[3] → [12]`. -/
def c9xSrc : RangeData := ⟨⟨"s", [1], [3]⟩, [⟨[1], [10], []⟩, ⟨[3], [12], []⟩]⟩

/-- C9 counterexample dest: a single earlier range with `[0] → [11]`;
dest exhausts after one record, so the source side drains. -/
def c9xDst : RangeData := ⟨⟨"d", [0], [0]⟩, [⟨[0], [11], []⟩]⟩

/-- C9 counterexample: the claim says a drained record is skipped only
when its *ancestor* has an identical identity, and "any other record is
emitted".  Source's record `[1] → [10]` has no ancestor at all at key
`[1]` (the base holds only `[2] → [10]`), yet the drain skips it: the
GE-lookup lands on the ancestor record at the larger key `[2]`, whose
identity matches, and `handleAll` (merge.go:115) never compares the keys.
The first conjunct shows the drain step in isolation (only `[3] → [12]`
is written); the rest shows the state is reached by a full merge run,
which succeeds with the added record silently dropped from the output. -/
theorem c9_counterexample_added_record_dropped :
    handleAll noCancel ⟨IPos.inRange c9xSrc ⟨[1], [10], []⟩ [⟨[3], [12], []⟩] [],
        IPos.inRange c9xBase ⟨[2], [10], []⟩ [] [], [], 0⟩ =
      (none, ⟨IPos.eos, IPos.eos, [WAction.record ⟨[3], [12], []⟩], 2⟩) ∧
    (mergeRun noCancel [c9xBase] [c9xSrc] [c9xDst]).1 = none ∧
    (mergeRun noCancel [c9xBase] [c9xSrc] [c9xDst]).2.output =
      [WAction.record ⟨[0], [11], []⟩, WAction.record ⟨[3], [12], []⟩] ∧
    (∀ r ∈ c9xBase.recs, r.key ≠ [1]) := by
  have hb1 : moveBaseToGEKey ([1] : Bytes)
      (IPos.inRange c9xBase ⟨[2], [10], []⟩ [] []) =
      (some ⟨[2], [10], []⟩, IPos.inRange c9xBase ⟨[2], [10], []⟩ [] []) := by
    simp [moveBaseToGEKey, IPos.value, bytesCompare]
  have hb2 : moveBaseToGEKey ([3] : Bytes)
      (IPos.inRange c9xBase ⟨[2], [10], []⟩ [] []) =
      ((none : Option ValueRecord), IPos.eos) := by
    simp [moveBaseToGEKey, moveBaseToGERange, geKeyScan, c9xBase, IPos.value,
      IPos.next, IPos.nextRange, headerOrEos, bytesCompare]
  have hdrain : ∀ (out : List WAction) (n : Nat),
      handleAll noCancel ⟨IPos.inRange c9xSrc ⟨[1], [10], []⟩ [⟨[3], [12], []⟩] [],
        IPos.inRange c9xBase ⟨[2], [10], []⟩ [] [], out, n⟩ =
      (none, ⟨IPos.eos, IPos.eos, out ++ [WAction.record ⟨[3], [12], []⟩], n + 2⟩) := by
    intro out n
    rw [handleAll_record_cont noCancel
      ⟨IPos.inRange c9xSrc ⟨[1], [10], []⟩ [⟨[3], [12], []⟩] [],
        IPos.inRange c9xBase ⟨[2], [10], []⟩ [] [], out, n⟩
      ⟨[1], [10], []⟩ (some c9xSrc) _ out
      (IPos.inRange c9xSrc ⟨[3], [12], []⟩ [] []) rfl rfl hb1 (by simp) rfl]
    rw [handleAll_record_stop noCancel
      ⟨IPos.inRange c9xSrc ⟨[3], [12], []⟩ [] [],
        IPos.inRange c9xBase ⟨[2], [10], []⟩ [] [], out, n + 1⟩
      ⟨[3], [12], []⟩ (some c9xSrc) _
      (out ++ [WAction.record ⟨[3], [12], []⟩]) IPos.eos rfl rfl hb2 (by simp) rfl]
  have e0 : mergeRun noCancel [c9xBase] [c9xSrc] [c9xDst] =
      mergeLoop noCancel ⟨IPos.header c9xBase [], IPos.header c9xSrc [],
        IPos.header c9xDst [], true, true, [], 0⟩ := by
    simp [mergeRun, IPos.next, headerOrEos]
  have e1 : mergeStep ⟨IPos.header c9xBase [], IPos.header c9xSrc [],
      IPos.header c9xDst [], true, true, [], 1⟩ =
      (none, ⟨IPos.header c9xBase [],
        IPos.inRange c9xSrc ⟨[1], [10], []⟩ [⟨[3], [12], []⟩] [],
        IPos.inRange c9xDst ⟨[0], [11], []⟩ [] [], true, true, [], 1⟩) := by
    simp [mergeStep, handleBothRanges, moveBaseToGERange, c9xBase, c9xSrc, c9xDst,
      IPos.next, IPos.nextRange, IPos.value, headerOrEos, bytesCompare,
      MState.advSource, MState.advSourceRange, MState.advDest, MState.advDestRange,
      MState.emitRange, MState.setBase]
  have e2 : mergeStep ⟨IPos.header c9xBase [],
      IPos.inRange c9xSrc ⟨[1], [10], []⟩ [⟨[3], [12], []⟩] [],
      IPos.inRange c9xDst ⟨[0], [11], []⟩ [] [], true, true, [], 2⟩ =
      (none, ⟨IPos.inRange c9xBase ⟨[2], [10], []⟩ [] [],
        IPos.inRange c9xSrc ⟨[1], [10], []⟩ [⟨[3], [12], []⟩] [],
        IPos.eos, true, false, [WAction.record ⟨[0], [11], []⟩], 2⟩) := by
    simp [mergeStep, handleBothKeys, moveBaseToGEKey, moveBaseToGERange, geKeyScan,
      c9xBase, c9xSrc, c9xDst, IPos.next, IPos.nextRange, IPos.value, headerOrEos,
      bytesCompare, MState.advSource, MState.advDest, MState.emitRecord,
      MState.setBase]
  have e3 : mergeRun noCancel [c9xBase] [c9xSrc] [c9xDst] =
      (none, MState.ofDrainSource ⟨IPos.inRange c9xBase ⟨[2], [10], []⟩ [] [],
        IPos.inRange c9xSrc ⟨[1], [10], []⟩ [⟨[3], [12], []⟩] [],
        IPos.eos, true, false, [WAction.record ⟨[0], [11], []⟩], 2⟩
        ⟨IPos.eos, IPos.eos,
          [WAction.record ⟨[0], [11], []⟩] ++ [WAction.record ⟨[3], [12], []⟩],
          2 + 2⟩) := by
    rw [e0, mergeLoop_cont noCancel _ _ rfl rfl rfl e1,
      mergeLoop_cont noCancel _ _ rfl rfl rfl e2]
    exact mergeLoop_drainS_ok noCancel _ _ rfl rfl
      (hdrain [WAction.record ⟨[0], [11], []⟩] 2)
  refine ⟨by simpa using hdrain [] 0, by rw [e3], by rw [e3]; rfl, ?_⟩
  simp [c9xBase]

/-- Helper for idempotence: with source and dest at the header of the same
range list, every iteration takes the equal-ids case of
`handleBothRanges`: the range is copied whole and both sides advance by
`NextRange`; the base is never consulted. -/
theorem mergeLoop_selfSame (rs : List RangeData) :
    ∀ (r : RangeData) (b : IPos) (o : List WAction) (n : Nat),
    mergeLoop noCancel ⟨b, IPos.header r rs, IPos.header r rs, true, true, o, n⟩ =
      (none, ⟨b, IPos.eos, IPos.eos, false, false,
        o ++ (r :: rs).map WAction.range, n + (r :: rs).length⟩) := by
  induction rs with
  | nil =>
      intro r b o n
      have e1 : mergeStep ⟨b, IPos.header r [], IPos.header r [], true, true, o, n + 1⟩ =
          (none, ⟨b, IPos.eos, IPos.eos, false, false, o ++ [WAction.range r], n + 1⟩) := by
        simp [mergeStep, handleBothRanges, IPos.value, IPos.nextRange, headerOrEos,
          MState.emitRange, MState.advSourceRange, MState.advDestRange]
      rw [mergeLoop_cont noCancel _ _ rfl rfl rfl e1, mergeLoop_done noCancel _ rfl rfl]
      simp
  | cons r' rs' ih =>
      intro r b o n
      have e1 : mergeStep ⟨b, IPos.header r (r' :: rs'), IPos.header r (r' :: rs'),
          true, true, o, n + 1⟩ =
          (none, ⟨b, IPos.header r' rs', IPos.header r' rs', true, true,
            o ++ [WAction.range r], n + 1⟩) := by
        simp [mergeStep, handleBothRanges, IPos.value, IPos.nextRange, headerOrEos,
          MState.emitRange, MState.advSourceRange, MState.advDestRange]
      rw [mergeLoop_cont noCancel _ _ rfl rfl rfl e1, ih r' b (o ++ [WAction.range r]) (n + 1)]
      simp [List.length_cons]
      omega

/-- C6: idempotence.  Merging `X` with itself over itself (base = source =
dest = X) succeeds and emits exactly `X`, range for range: every range of
`X` is copied whole through `WriteRange` by the equal-ids case, and no
`WriteRecord` call ever happens (the output consists of `WAction.range`
entries only, one per range of `X`, in order). -/
theorem c6_merge_idempotent (X : List RangeData) :
    (mergeRun noCancel X X X).1 = none ∧
    (mergeRun noCancel X X X).2.output = X.map WAction.range := by
  cases X with
  | nil =>
      have e0 : mergeRun noCancel [] [] [] =
          mergeLoop noCancel ⟨IPos.eos, IPos.eos, IPos.eos, false, false, [], 0⟩ := by
        simp [mergeRun, IPos.next, headerOrEos]
      rw [e0, mergeLoop_done noCancel _ rfl rfl]
      exact ⟨rfl, rfl⟩
  | cons r rs =>
      have e0 : mergeRun noCancel (r :: rs) (r :: rs) (r :: rs) =
          mergeLoop noCancel ⟨IPos.header r rs, IPos.header r rs, IPos.header r rs,
            true, true, [], 0⟩ := by
        simp [mergeRun, IPos.next, headerOrEos]
      rw [e0, mergeLoop_selfSame rs r (IPos.header r rs) [] 0]
      simp

/-! ### Order facts about `bytesCompare` -/

theorem bytesCompare_eq_iff (a b : Bytes) :
    bytesCompare a b = Ordering.eq ↔ a = b := by
  induction a generalizing b with
  | nil => cases b <;> simp [bytesCompare]
  | cons x xs ih =>
      cases b with
      | nil => simp [bytesCompare]
      | cons y ys =>
          by_cases h1 : x < y
          · constructor
            · intro h; simp [bytesCompare, h1] at h
            · intro h; injection h with h3 h4; omega
          · by_cases h2 : y < x
            · constructor
              · intro h; simp [bytesCompare, h1, h2] at h
              · intro h; injection h with h3 h4; omega
            · have hxy : x = y := by omega
              subst hxy
              simp [bytesCompare, ih]

theorem bytesCompare_swap (a b : Bytes) :
    bytesCompare b a = (bytesCompare a b).swap := by
  induction a generalizing b with
  | nil => cases b <;> simp [bytesCompare, Ordering.swap]
  | cons x xs ih =>
      cases b with
      | nil => simp [bytesCompare, Ordering.swap]
      | cons y ys =>
          simp only [bytesCompare]
          rcases Nat.lt_trichotomy x y with h | h | h
          · have h' : ¬ y < x := by omega
            simp [h, h', Ordering.swap]
          · subst h
            simp [Nat.lt_irrefl, ih]
          · have h' : ¬ x < y := by omega
            simp [h, h', Ordering.swap]

theorem bytesCompare_lt_trans {a b c : Bytes}
    (h1 : bytesCompare a b = Ordering.lt) (h2 : bytesCompare b c = Ordering.lt) :
    bytesCompare a c = Ordering.lt := by
  induction a generalizing b c with
  | nil =>
      cases b with
      | nil => simp [bytesCompare] at h1
      | cons y ys =>
          cases c with
          | nil => simp [bytesCompare] at h2
          | cons z zs => simp [bytesCompare]
  | cons x xs ih =>
      cases b with
      | nil => simp [bytesCompare] at h1
      | cons y ys =>
          cases c with
          | nil => simp [bytesCompare] at h2
          | cons z zs =>
              simp only [bytesCompare] at h1 h2 ⊢
              by_cases hxy : x < y
              · by_cases hyz : y < z
                · have hxz : x < z := Nat.lt_trans hxy hyz
                  simp [hxz]
                · by_cases hzy : z < y
                  · simp [hyz, hzy] at h2
                  · have hyzeq : y = z := by omega
                    subst hyzeq
                    simp [hxy]
              · by_cases hyx : y < x
                · simp [hxy, hyx] at h1
                · have hxyeq : x = y := by omega
                  subst hxyeq
                  by_cases hxz : x < z
                  · simp [hxz]
                  · by_cases hzx : z < x
                    · simp [hxz, hzx] at h2
                    · have hxzeq : x = z := by omega
                      subst hxzeq
                      simp only [if_neg (Nat.lt_irrefl x)] at h1 h2 ⊢
                      exact ih h1 h2

theorem bytesCompare_ne_gt_iff {a b : Bytes} :
    bytesCompare a b ≠ Ordering.gt ↔
      (bytesCompare a b = Ordering.lt ∨ a = b) := by
  rcases h : bytesCompare a b with _ | _ | _
  · simp
  · exact iff_of_true (by simp) (Or.inr (bytesCompare_eq_iff a b |>.mp h))
  · constructor
    · intro hh; exact absurd rfl hh
    · rintro (hh | hh)
      · cases hh
      · subst hh; rw [bytesCompare_self] at h; cases h

theorem bytesCompare_gt_iff {a b : Bytes} :
    bytesCompare a b = Ordering.gt ↔ bytesCompare b a = Ordering.lt := by
  rw [bytesCompare_swap b a]
  rcases h : bytesCompare b a with _ | _ | _ <;> simp [h, Ordering.swap]

theorem bytesCompare_le_lt_trans {a b c : Bytes}
    (h1 : bytesCompare a b ≠ Ordering.gt) (h2 : bytesCompare b c = Ordering.lt) :
    bytesCompare a c = Ordering.lt := by
  rcases bytesCompare_ne_gt_iff.mp h1 with h | h
  · exact bytesCompare_lt_trans h h2
  · rwa [h]

theorem bytesCompare_lt_le_trans {a b c : Bytes}
    (h1 : bytesCompare a b = Ordering.lt) (h2 : bytesCompare b c ≠ Ordering.gt) :
    bytesCompare a c = Ordering.lt := by
  rcases bytesCompare_ne_gt_iff.mp h2 with h | h
  · exact bytesCompare_lt_trans h1 h
  · rwa [← h]

theorem bytesCompare_le_trans {a b c : Bytes}
    (h1 : bytesCompare a b ≠ Ordering.gt) (h2 : bytesCompare b c ≠ Ordering.gt) :
    bytesCompare a c ≠ Ordering.gt := by
  rcases bytesCompare_ne_gt_iff.mp h1 with h | h
  · simp [bytesCompare_lt_le_trans h h2]
  · rwa [h]

theorem bytesCompare_lt_asymm {a b : Bytes}
    (h : bytesCompare a b = Ordering.lt) : bytesCompare b a ≠ Ordering.lt := by
  rw [bytesCompare_swap a b, h]
  simp [Ordering.swap]

theorem bytesCompare_lt_ne_gt {a b : Bytes}
    (h : bytesCompare a b = Ordering.lt) : bytesCompare a b ≠ Ordering.gt := by
  simp [h]

/-! ### Well-formed iterator contents (the §3 invariants) -/

/-- Record `u` sorts strictly below record `v` in key order. -/
def recBelow (u v : ValueRecord) : Prop :=
  bytesCompare u.key v.key = Ordering.lt

instance : DecidableRel recBelow := fun u v =>
  inferInstanceAs (Decidable (bytesCompare u.key v.key = Ordering.lt))

instance : IsTrans ValueRecord recBelow :=
  ⟨fun _ _ _ h1 h2 => bytesCompare_lt_trans h1 h2⟩

/-- A `Chain'` decision procedure that reduces in the kernel (the library
instance is tactic-defined and gets stuck under `decide`). -/
instance decChain {α : Type} (R : α → α → Prop) [DecidableRel R] :
    ∀ l : List α, Decidable (List.Chain' R l)
  | [] => isTrue List.chain'_nil
  | [a] => isTrue (List.chain'_singleton a)
  | a :: b :: l =>
      @decidable_of_decidable_of_iff (R a b ∧ List.Chain' R (b :: l)) _
        (@instDecidableAnd _ _ _ (decChain R (b :: l)))
        (List.chain'_cons).symm

/-- Range `r1` ends strictly before range `r2` begins. -/
def rangeBelow (r1 r2 : RangeData) : Prop :=
  bytesCompare r1.rng.maxKey r2.rng.minKey = Ordering.lt

instance : DecidableRel rangeBelow := fun r1 r2 =>
  inferInstanceAs (Decidable (bytesCompare r1.rng.maxKey r2.rng.minKey = Ordering.lt))

/-- One well-formed range: non-empty, strictly sorted records, and
`MinKey` / `MaxKey` equal to the first / last record key. -/
def wfRD (r : RangeData) : Prop :=
  r.recs ≠ [] ∧ List.Chain' recBelow r.recs ∧
  r.recs.head?.map ValueRecord.key = some r.rng.minKey ∧
  r.recs.getLast?.map ValueRecord.key = some r.rng.maxKey

instance (r : RangeData) : Decidable (wfRD r) :=
  inferInstanceAs (Decidable (r.recs ≠ [] ∧ List.Chain' recBelow r.recs ∧
    r.recs.head?.map ValueRecord.key = some r.rng.minKey ∧
    r.recs.getLast?.map ValueRecord.key = some r.rng.maxKey))

/-- A well-formed suffix of ranges: each range well-formed, successive
ranges strictly separated (`prev.max_key < next.min_key`). -/
def wfRanges (rs : List RangeData) : Prop :=
  (∀ r ∈ rs, wfRD r) ∧ List.Chain' rangeBelow rs

instance (rs : List RangeData) : Decidable (wfRanges rs) :=
  inferInstanceAs (Decidable ((∀ r ∈ rs, wfRD r) ∧ List.Chain' rangeBelow rs))

/-- The §3 invariants at an iterator position: the remaining ranges are
well-formed and ordered, and an in-range cursor is a genuine suffix of
its range. -/
def WFpos : IPos → Prop
  | .start rs => wfRanges rs
  | .header r rs => wfRanges (r :: rs)
  | .inRange r cur rest rs => wfRanges (r :: rs) ∧ (cur :: rest) <:+ r.recs
  | .eos => True

instance (p : IPos) : Decidable (WFpos p) :=
  match p with
  | .start rs => inferInstanceAs (Decidable (wfRanges rs))
  | .header r rs => inferInstanceAs (Decidable (wfRanges (r :: rs)))
  | .inRange r cur rest rs =>
      inferInstanceAs (Decidable (wfRanges (r :: rs) ∧ (cur :: rest) <:+ r.recs))
  | .eos => inferInstanceAs (Decidable True)

/-- Records of a suffix of ranges, in order. -/
def recsOfRanges : List RangeData → List ValueRecord
  | [] => []
  | r :: rs => r.recs ++ recsOfRanges rs

/-- The records at or after an iterator position. -/
def IPos.remRecords : IPos → List ValueRecord
  | .start rs => recsOfRanges rs
  | .header r rs => r.recs ++ recsOfRanges rs
  | .inRange _ cur rest rs => cur :: rest ++ recsOfRanges rs
  | .eos => []

theorem getLast?_mem_self {α : Type} : ∀ {l : List α} {a : α},
    l.getLast? = some a → a ∈ l := by
  intro l
  induction l with
  | nil => intro a h; cases h
  | cons x xs ih =>
      intro a h
      cases xs with
      | nil => simp [List.getLast?] at h; simp [h]
      | cons y ys =>
          rw [List.getLast?_cons_cons] at h
          exact List.mem_cons_of_mem x (ih h)

theorem getLast?_of_suffix {α : Type} {l1 l2 : List α}
    (h : l1 <:+ l2) (hne : l1 ≠ []) : l2.getLast? = l1.getLast? := by
  obtain ⟨t, rfl⟩ := h
  exact List.getLast?_append_of_ne_nil t hne

theorem wfRD_sorted_pairwise {r : RangeData} (h : wfRD r) :
    List.Pairwise recBelow r.recs :=
  List.chain'_iff_pairwise.mp h.2.1

theorem wfRD_mem_le_max {r : RangeData} (h : wfRD r) {v : ValueRecord}
    (hv : v ∈ r.recs) : bytesCompare v.key r.rng.maxKey ≠ Ordering.gt := by
  obtain ⟨hne, hs, hmin, hmax⟩ := h
  cases hl : r.recs.getLast? with
  | none => rw [hl] at hmax; cases hmax
  | some w =>
      rw [hl] at hmax
      have hwk : w.key = r.rng.maxKey := by
        simpa using hmax
      have hsplit : r.recs.dropLast ++ [w] = r.recs :=
        List.dropLast_append_getLast? w hl
      have hv' : v ∈ r.recs.dropLast ++ [w] := by rw [hsplit]; exact hv
      rcases List.mem_append.mp hv' with hin | hin
      · have hpw : List.Pairwise recBelow (r.recs.dropLast ++ [w]) := by
          rw [hsplit]; exact List.chain'_iff_pairwise.mp hs
        have := (List.pairwise_append.mp hpw).2.2 v hin w (by simp)
        rw [← hwk]
        exact bytesCompare_lt_ne_gt this
      · have : v = w := by simpa using hin
        subst this
        rw [← hwk, bytesCompare_self]
        simp

theorem wfRD_min_le_mem {r : RangeData} (h : wfRD r) {v : ValueRecord}
    (hv : v ∈ r.recs) : bytesCompare r.rng.minKey v.key ≠ Ordering.gt := by
  obtain ⟨hne, hs, hmin, hmax⟩ := h
  cases hl : r.recs.head? with
  | none => rw [hl] at hmin; cases hmin
  | some w =>
      rw [hl] at hmin
      have hwk : w.key = r.rng.minKey := by simpa using hmin
      cases hr : r.recs with
      | nil => exact absurd hr hne
      | cons c cs =>
          rw [hr] at hl
          have hcw : c = w := by simpa [List.head?] using hl
          subst hcw
          rw [hr] at hv hs
          rcases List.mem_cons.mp hv with h1 | h1
          · subst h1; rw [← hwk, bytesCompare_self]; simp
          · have hpw := List.chain'_iff_pairwise.mp hs
            have := (List.pairwise_cons.mp hpw).1 v h1
            rw [← hwk]
            exact bytesCompare_lt_ne_gt this

theorem wfRD_min_le_max {r : RangeData} (h : wfRD r) :
    bytesCompare r.rng.minKey r.rng.maxKey ≠ Ordering.gt := by
  obtain ⟨hne, hs, hmin, hmax⟩ := h
  cases hr : r.recs with
  | nil => exact absurd hr hne
  | cons c cs =>
      have hc : c ∈ r.recs := by rw [hr]; simp
      have h1 := wfRD_min_le_mem ⟨hne, hs, hmin, hmax⟩ hc
      have h2 := wfRD_mem_le_max ⟨hne, hs, hmin, hmax⟩ hc
      exact bytesCompare_le_trans h1 h2

theorem wfRanges_tail {r : RangeData} {rs : List RangeData}
    (h : wfRanges (r :: rs)) : wfRanges rs :=
  ⟨fun r' hr' => h.1 r' (List.mem_cons_of_mem r hr'), h.2.tail⟩

theorem wfRanges_head {r : RangeData} {rs : List RangeData}
    (h : wfRanges (r :: rs)) : wfRD r := h.1 r (List.mem_cons_self r rs)

/-- Every record of the later ranges sorts strictly above the current
range's `MaxKey`. -/
theorem recsOfRanges_above {r : RangeData} {rs : List RangeData}
    (h : wfRanges (r :: rs)) :
    ∀ v ∈ recsOfRanges rs, bytesCompare r.rng.maxKey v.key = Ordering.lt := by
  induction rs generalizing r with
  | nil => intro v hv; simp [recsOfRanges] at hv
  | cons r1 rs' ih =>
      intro v hv
      have hchain : rangeBelow r r1 := List.chain'_cons.mp h.2 |>.1
      rcases List.mem_append.mp hv with h1 | h1
      · have hmin := wfRD_min_le_mem (h.1 r1 (by simp)) h1
        exact bytesCompare_lt_le_trans hchain hmin
      · have hr1 : wfRanges (r1 :: rs') := wfRanges_tail h
        have := ih hr1 v h1
        have hbridge : bytesCompare r.rng.maxKey r1.rng.maxKey ≠ Ordering.gt := by
          have := wfRD_min_le_max (h.1 r1 (by simp))
          exact bytesCompare_le_trans (bytesCompare_lt_ne_gt hchain) this
        exact bytesCompare_le_lt_trans hbridge this

theorem bytesCompare_ne_lt_swap {a b : Bytes} :
    bytesCompare a b ≠ Ordering.lt ↔ bytesCompare b a ≠ Ordering.gt :=
  not_congr bytesCompare_gt_iff |>.symm

theorem GER_found (key : Bytes) (b : IPos) (r : RangeData)
    (hv : b.value.2 = some r)
    (hcond : bytesCompare r.rng.maxKey key ≠ Ordering.lt) :
    moveBaseToGERange key b = (some r, b) := by
  rw [moveBaseToGERange.eq_def]
  simp only [hv]
  rw [if_pos hcond]

theorem GER_skip_step (key : Bytes) (b b' : IPos) (r : RangeData)
    (hv : b.value.2 = some r)
    (hcond : ¬ bytesCompare r.rng.maxKey key ≠ Ordering.lt)
    (hn : b.nextRange = (true, b')) :
    moveBaseToGERange key b = moveBaseToGERange key b' := by
  rw [moveBaseToGERange.eq_def]
  simp only [hv]
  rw [if_neg hcond]
  split
  · next b'' heq => rw [hn] at heq; cases heq; rfl
  · next b'' heq => rw [hn] at heq; cases heq

theorem GER_skip_stop (key : Bytes) (b b' : IPos) (r : RangeData)
    (hv : b.value.2 = some r)
    (hcond : ¬ bytesCompare r.rng.maxKey key ≠ Ordering.lt)
    (hn : b.nextRange = (false, b')) :
    moveBaseToGERange key b = (none, b') := by
  rw [moveBaseToGERange.eq_def]
  simp only [hv]
  rw [if_neg hcond]
  split
  · next b'' heq => rw [hn] at heq; cases heq
  · next b'' heq => rw [hn] at heq; cases heq; rfl

theorem GER_none_step (key : Bytes) (b b' : IPos)
    (hv : b.value.2 = none) (hn : b.nextRange = (true, b')) :
    moveBaseToGERange key b = moveBaseToGERange key b' := by
  rw [moveBaseToGERange.eq_def]
  simp only [hv]
  split
  · next b'' heq => rw [hn] at heq; cases heq; rfl
  · next b'' heq => rw [hn] at heq; cases heq

theorem GER_none_stop (key : Bytes) (b b' : IPos)
    (hv : b.value.2 = none) (hn : b.nextRange = (false, b')) :
    moveBaseToGERange key b = (none, b') := by
  rw [moveBaseToGERange.eq_def]
  simp only [hv]
  split
  · next b'' heq => rw [hn] at heq; cases heq
  · next b'' heq => rw [hn] at heq; cases heq; rfl

/-- Specification of `moveBaseToGERange` under the §3 invariants: the new
position is well-formed; the records it skipped all sort strictly below
the key; the found range (if any) is the current range of the resulting
position with `MaxKey ≥ key`; exhaustion ends at end-of-stream. -/
def gerSpec (key : Bytes) (b : IPos) : Prop :=
  WFpos (moveBaseToGERange key b).2 ∧
  (∃ skipped, b.remRecords = skipped ++ (moveBaseToGERange key b).2.remRecords ∧
    ∀ w ∈ skipped, bytesCompare w.key key = Ordering.lt) ∧
  (∀ rd, (moveBaseToGERange key b).1 = some rd →
    (moveBaseToGERange key b).2.value.2 = some rd ∧
    bytesCompare key rd.rng.maxKey ≠ Ordering.gt) ∧
  ((moveBaseToGERange key b).1 = none → (moveBaseToGERange key b).2 = IPos.eos)

theorem moveBaseToGERange_spec_aux (key : Bytes) :
    ∀ (n : Nat) (b : IPos), b.rleft ≤ n → WFpos b → gerSpec key b := by
  intro n
  induction n with
  | zero =>
      intro b hb hwf
      cases b with
      | eos =>
          unfold gerSpec
          rw [GER_none_stop key IPos.eos IPos.eos rfl rfl]
          refine ⟨trivial, ⟨[], by simp [IPos.remRecords], by simp⟩, ?_, fun _ => rfl⟩
          intro rd h; cases h
      | start rs => simp [IPos.rleft] at hb
      | header r rs => simp [IPos.rleft] at hb
      | inRange r cur rest rs => simp [IPos.rleft] at hb
  | succ n ih =>
      intro b hb hwf
      cases b with
      | eos =>
          unfold gerSpec
          rw [GER_none_stop key IPos.eos IPos.eos rfl rfl]
          refine ⟨trivial, ⟨[], by simp [IPos.remRecords], by simp⟩, ?_, fun _ => rfl⟩
          intro rd h; cases h
      | start rs =>
          cases rs with
          | nil =>
              unfold gerSpec
              rw [GER_none_stop key (IPos.start []) IPos.eos rfl rfl]
              refine ⟨trivial, ⟨[], by simp [IPos.remRecords, recsOfRanges], by simp⟩,
                ?_, fun _ => rfl⟩
              intro rd h; cases h
          | cons r rs' =>
              have heq : moveBaseToGERange key (IPos.start (r :: rs')) =
                  moveBaseToGERange key (IPos.header r rs') :=
                GER_none_step key _ _ rfl rfl
              have hrec := ih (IPos.header r rs')
                (by simp [IPos.rleft] at hb ⊢; omega) hwf
              unfold gerSpec at hrec ⊢
              rw [heq]
              refine ⟨hrec.1, ?_, hrec.2.2.1, hrec.2.2.2⟩
              obtain ⟨sk, hsk, hsk2⟩ := hrec.2.1
              exact ⟨sk, by simpa [IPos.remRecords, recsOfRanges] using hsk, hsk2⟩
      | header r rs =>
          by_cases hcond : bytesCompare r.rng.maxKey key ≠ Ordering.lt
          · have heq := GER_found key (IPos.header r rs) r rfl hcond
            unfold gerSpec
            rw [heq]
            refine ⟨hwf, ⟨[], by simp, by simp⟩, ?_, ?_⟩
            · intro rd h
              have : r = rd := by simpa using h
              subst this
              exact ⟨rfl, bytesCompare_ne_lt_swap.mp hcond⟩
            · intro h; cases h
          · have hlt : bytesCompare r.rng.maxKey key = Ordering.lt := not_not.mp hcond
            have hskiprec : ∀ w ∈ r.recs, bytesCompare w.key key = Ordering.lt := by
              intro w hw
              exact bytesCompare_le_lt_trans (wfRD_mem_le_max (wfRanges_head hwf) hw) hlt
            cases rs with
            | nil =>
                have heq := GER_skip_stop key (IPos.header r []) IPos.eos r rfl hcond rfl
                unfold gerSpec
                rw [heq]
                refine ⟨trivial, ⟨r.recs, by simp [IPos.remRecords, recsOfRanges],
                  hskiprec⟩, ?_, fun _ => rfl⟩
                intro rd h; cases h
            | cons r1 rs' =>
                have heq := GER_skip_step key (IPos.header r (r1 :: rs'))
                  (IPos.header r1 rs') r rfl hcond rfl
                have hrec := ih (IPos.header r1 rs')
                  (by simp [IPos.rleft] at hb ⊢; omega) (wfRanges_tail hwf)
                unfold gerSpec at hrec ⊢
                rw [heq]
                refine ⟨hrec.1, ?_, hrec.2.2.1, hrec.2.2.2⟩
                obtain ⟨sk, hsk, hsk2⟩ := hrec.2.1
                refine ⟨r.recs ++ sk, ?_, ?_⟩
                · have : (IPos.header r (r1 :: rs')).remRecords =
                      r.recs ++ (IPos.header r1 rs').remRecords := by
                    simp [IPos.remRecords, recsOfRanges]
                  rw [this, hsk, List.append_assoc]
                · intro w hw
                  rcases List.mem_append.mp hw with h1 | h1
                  · exact hskiprec w h1
                  · exact hsk2 w h1
      | inRange r cur rest rs =>
          by_cases hcond : bytesCompare r.rng.maxKey key ≠ Ordering.lt
          · have heq := GER_found key (IPos.inRange r cur rest rs) r rfl hcond
            unfold gerSpec
            rw [heq]
            refine ⟨hwf, ⟨[], by simp, by simp⟩, ?_, ?_⟩
            · intro rd h
              have : r = rd := by simpa using h
              subst this
              exact ⟨rfl, bytesCompare_ne_lt_swap.mp hcond⟩
            · intro h; cases h
          · have hlt : bytesCompare r.rng.maxKey key = Ordering.lt := not_not.mp hcond
            have hskiprec : ∀ w ∈ cur :: rest, bytesCompare w.key key = Ordering.lt := by
              intro w hw
              have hmem : w ∈ r.recs := hwf.2.mem hw
              exact bytesCompare_le_lt_trans
                (wfRD_mem_le_max (wfRanges_head hwf.1) hmem) hlt
            cases rs with
            | nil =>
                have heq := GER_skip_stop key (IPos.inRange r cur rest [])
                  IPos.eos r rfl hcond rfl
                unfold gerSpec
                rw [heq]
                refine ⟨trivial, ⟨cur :: rest, by simp [IPos.remRecords, recsOfRanges],
                  hskiprec⟩, ?_, fun _ => rfl⟩
                intro rd h; cases h
            | cons r1 rs' =>
                have heq := GER_skip_step key (IPos.inRange r cur rest (r1 :: rs'))
                  (IPos.header r1 rs') r rfl hcond rfl
                have hrec := ih (IPos.header r1 rs')
                  (by simp [IPos.rleft] at hb ⊢; omega) (wfRanges_tail hwf.1)
                unfold gerSpec at hrec ⊢
                rw [heq]
                refine ⟨hrec.1, ?_, hrec.2.2.1, hrec.2.2.2⟩
                obtain ⟨sk, hsk, hsk2⟩ := hrec.2.1
                refine ⟨(cur :: rest) ++ sk, ?_, ?_⟩
                · have : (IPos.inRange r cur rest (r1 :: rs')).remRecords =
                      (cur :: rest) ++ (IPos.header r1 rs').remRecords := by
                    simp [IPos.remRecords, recsOfRanges]
                  rw [this, hsk, List.append_assoc]
                · intro w hw
                  rcases List.mem_append.mp hw with h1 | h1
                  · exact hskiprec w h1
                  · exact hsk2 w h1

theorem moveBaseToGERange_spec (key : Bytes) (b : IPos) (hwf : WFpos b) :
    gerSpec key b :=
  moveBaseToGERange_spec_aux key b.rleft b (Nat.le_refl _) hwf

theorem scan_hit (key : Bytes) (br : Option RangeData) (b : IPos) (v : ValueRecord)
    (hv : b.value.1 = some v) (hk : bytesCompare key v.key ≠ Ordering.gt) :
    geKeyScan key br b = (some v, b) := by
  rw [geKeyScan.eq_def]
  simp only [hv]
  rw [if_pos hk]

theorem scan_miss_step (key : Bytes) (b b' : IPos) (v : ValueRecord)
    (irr brr : RangeData) (hv : b.value.1 = some v)
    (hk : ¬ bytesCompare key v.key ≠ Ordering.gt)
    (hn : b.next = (true, b')) (hv2 : b.value.2 = some irr)
    (hid : irr.rng.id = brr.rng.id) :
    geKeyScan key (some brr) b = geKeyScan key (some brr) b' := by
  rw [geKeyScan.eq_def]
  simp only [hv]
  rw [if_neg hk]
  split
  · next b'' heq => rw [hn] at heq; cases heq
  · next b'' heq =>
      rw [hn] at heq; cases heq
      simp only [hv2]
      rw [if_pos hid]

theorem scan_none_step (key : Bytes) (b b' : IPos)
    (irr brr : RangeData) (hv : b.value.1 = none)
    (hn : b.next = (true, b')) (hv2 : b.value.2 = some irr)
    (hid : irr.rng.id = brr.rng.id) :
    geKeyScan key (some brr) b = geKeyScan key (some brr) b' := by
  rw [geKeyScan.eq_def]
  simp only [hv]
  split
  · next b'' heq => rw [hn] at heq; cases heq
  · next b'' heq =>
      rw [hn] at heq; cases heq
      simp only [hv2]
      rw [if_pos hid]

theorem scan_eos (key : Bytes) (br : Option RangeData) :
    geKeyScan key br IPos.eos = (none, IPos.eos) := by
  rw [geKeyScan.eq_def]
  simp [IPos.value, IPos.next]

/-- The record-level scan inside the found range: starting at any record
of `rd` (with the §3 invariants and `key ≤ rd.MaxKey`), the scan returns
the first remaining record of `rd` whose key is `≥ key`, never leaving
`rd`. -/
theorem geKeyScan_inRange_spec (key : Bytes) (rd : RangeData) :
    ∀ (rest : List ValueRecord) (cur : ValueRecord) (rs : List RangeData),
      wfRanges (rd :: rs) → (cur :: rest) <:+ rd.recs →
      bytesCompare key rd.rng.maxKey ≠ Ordering.gt →
      ∃ v b2, geKeyScan key (some rd) (IPos.inRange rd cur rest rs) = (some v, b2) ∧
        v ∈ cur :: rest ∧ bytesCompare key v.key ≠ Ordering.gt ∧
        ∀ w ∈ cur :: rest, bytesCompare key w.key ≠ Ordering.gt →
          bytesCompare v.key w.key ≠ Ordering.gt := by
  intro rest
  induction rest with
  | nil =>
      intro cur rs hwf hsuf hle
      have hlast : rd.recs.getLast? = some cur := by
        rw [getLast?_of_suffix hsuf (by simp)]
        rfl
      have hck : cur.key = rd.rng.maxKey := by
        have h4 := (wfRanges_head hwf).2.2.2
        rw [hlast] at h4
        simpa using h4
      have hk : bytesCompare key cur.key ≠ Ordering.gt := by rw [hck]; exact hle
      refine ⟨cur, _, scan_hit key (some rd) _ cur rfl hk, by simp, hk, ?_⟩
      intro w hw hwk
      have : w = cur := by simpa using hw
      subst this
      rw [bytesCompare_self]
      simp
  | cons v1 vs ih =>
      intro cur rs hwf hsuf hle
      by_cases hk : bytesCompare key cur.key ≠ Ordering.gt
      · refine ⟨cur, _, scan_hit key (some rd) _ cur rfl hk, by simp, hk, ?_⟩
        intro w hw hwk
        rcases List.mem_cons.mp hw with h1 | h1
        · subst h1; rw [bytesCompare_self]; simp
        · have hpw : List.Pairwise recBelow (cur :: v1 :: vs) :=
            List.Pairwise.sublist hsuf.sublist
              (wfRD_sorted_pairwise (wfRanges_head hwf))
          have := (List.pairwise_cons.mp hpw).1 w h1
          exact bytesCompare_lt_ne_gt this
      · have hstep := scan_miss_step key (IPos.inRange rd cur (v1 :: vs) rs)
          (IPos.inRange rd v1 vs rs) cur rd rd rfl hk rfl rfl rfl
        have hsuf' : (v1 :: vs) <:+ rd.recs :=
          (List.suffix_cons cur (v1 :: vs)).trans hsuf
        obtain ⟨v, b2, he, hmem, hvk, hmin⟩ := ih v1 rs hwf hsuf' hle
        refine ⟨v, b2, hstep.trans he, List.mem_cons_of_mem _ hmem, hvk, ?_⟩
        intro w hw hwk
        rcases List.mem_cons.mp hw with h1 | h1
        · subst h1; exact absurd hwk hk
        · exact hmin w h1 hwk

/-- The scan from any position whose current range is `rd`: it finds the
first remaining record with key `≥ key`; that record belongs to `rd`, and
it is minimal among all remaining records with key `≥ key`. -/
theorem geKeyScan_at_spec (key : Bytes) (rd : RangeData) (b1 : IPos)
    (hwf : WFpos b1) (hv : b1.value.2 = some rd)
    (hle : bytesCompare key rd.rng.maxKey ≠ Ordering.gt) :
    ∃ v b2, geKeyScan key (some rd) b1 = (some v, b2) ∧ v ∈ rd.recs ∧
      bytesCompare key v.key ≠ Ordering.gt ∧
      ∀ w ∈ b1.remRecords, bytesCompare key w.key ≠ Ordering.gt →
        bytesCompare v.key w.key ≠ Ordering.gt := by
  cases b1 with
  | start rs => simp [IPos.value] at hv
  | eos => simp [IPos.value] at hv
  | header r rs =>
      have hr : r = rd := by simpa [IPos.value] using hv
      subst hr
      cases hrecs : r.recs with
      | nil => exact absurd hrecs (wfRanges_head hwf).1
      | cons c cs =>
          have hn : (IPos.header r rs).next = (true, IPos.inRange r c cs rs) := by
            simp [IPos.next, hrecs]
          have hstep := scan_none_step key (IPos.header r rs)
            (IPos.inRange r c cs rs) r r rfl hn rfl rfl
          have hsuf : (c :: cs) <:+ r.recs := by rw [hrecs]
          obtain ⟨v, b2, he, hmem, hvk, hmin⟩ :=
            geKeyScan_inRange_spec key r cs c rs hwf hsuf hle
          have hmem' : v ∈ r.recs := by rw [hrecs]; exact hmem
          refine ⟨v, b2, hstep.trans he, hmem, hvk, ?_⟩
          intro w hw hwk
          rcases List.mem_append.mp (by simpa [IPos.remRecords] using hw) with h1 | h1
          · rw [hrecs] at h1
            exact hmin w h1 hwk
          · have habove := recsOfRanges_above hwf w h1
            have hvle : bytesCompare v.key r.rng.maxKey ≠ Ordering.gt :=
              wfRD_mem_le_max (wfRanges_head hwf) hmem'
            exact bytesCompare_lt_ne_gt (bytesCompare_le_lt_trans hvle habove)
  | inRange r cur rest rs =>
      have hr : r = rd := by simpa [IPos.value] using hv
      subst hr
      obtain ⟨v, b2, he, hmem, hvk, hmin⟩ :=
        geKeyScan_inRange_spec key r rest cur rs hwf.1 hwf.2 hle
      refine ⟨v, b2, he, hwf.2.mem hmem, hvk, ?_⟩
      intro w hw hwk
      have hw' : w = cur ∨ w ∈ rest ∨ w ∈ recsOfRanges rs := by
        simpa [IPos.remRecords] using hw
      rcases hw' with h1 | h1 | h1
      · subst h1
        exact hmin w (by simp) hwk
      · exact hmin w (List.mem_cons_of_mem _ h1) hwk
      · have habove := recsOfRanges_above hwf.1 w h1
        have hvle : bytesCompare v.key r.rng.maxKey ≠ Ordering.gt :=
          wfRD_mem_le_max (wfRanges_head hwf.1) (hwf.2.mem hmem)
        exact bytesCompare_lt_ne_gt (bytesCompare_le_lt_trans hvle habove)

theorem value_fst_some_inv {p : IPos} {v : ValueRecord}
    (h : p.value.1 = some v) :
    ∃ r rest rs, p = IPos.inRange r v rest rs := by
  cases p with
  | start rs => simp [IPos.value] at h
  | eos => simp [IPos.value] at h
  | header r rs => simp [IPos.value] at h
  | inRange r cur rest rs =>
      have : cur = v := by simpa [IPos.value] using h
      exact ⟨r, rest, rs, by rw [this]⟩

/-- The common slow path of `moveBaseToGEKey`: seek the range, then scan. -/
theorem geKey_slow_spec (key : Bytes) (b : IPos) (hwf : WFpos b)
    (heq : moveBaseToGEKey key b =
      geKeyScan key (moveBaseToGERange key b).1 (moveBaseToGERange key b).2) :
    (∀ v b2, moveBaseToGEKey key b = (some v, b2) →
      (∃ rd, (moveBaseToGERange key b).1 = some rd ∧ v ∈ rd.recs) ∧
      bytesCompare key v.key ≠ Ordering.gt ∧
      ∀ w ∈ b.remRecords, bytesCompare key w.key ≠ Ordering.gt →
        bytesCompare v.key w.key ≠ Ordering.gt) ∧
    (∀ b2, moveBaseToGEKey key b = (none, b2) →
      (moveBaseToGERange key b).1 = none) := by
  obtain ⟨hwf2, ⟨sk, hsk, hsklt⟩, hsome, hnone⟩ := moveBaseToGERange_spec key b hwf
  cases hp : (moveBaseToGERange key b).1 with
  | some rd =>
      obtain ⟨hval2, hle⟩ := hsome rd hp
      obtain ⟨v, b2', hscan, hmem, hvk, hmin⟩ :=
        geKeyScan_at_spec key rd (moveBaseToGERange key b).2 hwf2 hval2 hle
      constructor
      · intro v' b2 hres
        rw [heq, hp, hscan] at hres
        injection hres with h1 h2
        injection h1 with h1
        subst h1
        refine ⟨⟨rd, rfl, hmem⟩, hvk, ?_⟩
        intro w hw hwk
        rw [hsk] at hw
        rcases List.mem_append.mp hw with h1 | h1
        · exact absurd (bytesCompare_gt_iff.mpr (hsklt w h1)) hwk
        · exact hmin w h1 hwk
      · intro b2 hres
        rw [heq, hp, hscan] at hres
        simp at hres
  | none =>
      have hpos := hnone hp
      constructor
      · intro v b2 hres
        rw [heq, hp, hpos, scan_eos] at hres
        simp at hres
      · intro b2 hres
        rfl

/-- C8: `moveBaseToGEKey(k)` never crosses a range boundary.  Whenever it
returns a record, that record belongs to the range found by
`moveBaseToGERange(k)` (the first remaining base range with
`MaxKey ≥ k`), has key `≥ k`, and is the first remaining base record with
key `≥ k`; whenever it returns absent, no remaining base range reaches
`k` at all, so the ancestor is correctly treated as missing at `k`. -/
theorem c8_geKey_never_crosses_range (key : Bytes) (b : IPos) (hwf : WFpos b) :
    (∀ v b2, moveBaseToGEKey key b = (some v, b2) →
      (∃ rd, (moveBaseToGERange key b).1 = some rd ∧ v ∈ rd.recs) ∧
      bytesCompare key v.key ≠ Ordering.gt ∧
      ∀ w ∈ b.remRecords, bytesCompare key w.key ≠ Ordering.gt →
        bytesCompare v.key w.key ≠ Ordering.gt) ∧
    (∀ b2, moveBaseToGEKey key b = (none, b2) →
      (moveBaseToGERange key b).1 = none) := by
  cases hv0 : b.value.1 with
  | none =>
      have heq : moveBaseToGEKey key b =
          geKeyScan key (moveBaseToGERange key b).1 (moveBaseToGERange key b).2 := by
        unfold moveBaseToGEKey
        simp only [hv0]
      exact geKey_slow_spec key b hwf heq
  | some v0 =>
      by_cases hk : bytesCompare key v0.key ≠ Ordering.gt
      · have heq : moveBaseToGEKey key b = (some v0, b) := by
          unfold moveBaseToGEKey
          simp only [hv0]
          rw [if_pos hk]
        obtain ⟨r, rest, rs, rfl⟩ := value_fst_some_inv hv0
        have hvmem : v0 ∈ r.recs := hwf.2.mem (by simp)
        have hle : bytesCompare r.rng.maxKey key ≠ Ordering.lt :=
          bytesCompare_ne_lt_swap.mpr
            (bytesCompare_le_trans hk (wfRD_mem_le_max (wfRanges_head hwf.1) hvmem))
        have hger : moveBaseToGERange key (IPos.inRange r v0 rest rs) =
            (some r, IPos.inRange r v0 rest rs) :=
          GER_found key (IPos.inRange r v0 rest rs) r rfl hle
        constructor
        · intro v b2 hres
          rw [heq] at hres
          injection hres with h1 h2
          injection h1 with h1
          subst h1
          refine ⟨⟨r, by rw [hger], hvmem⟩, hk, ?_⟩
          intro w hw hwk
          have hw' : w = v0 ∨ w ∈ rest ∨ w ∈ recsOfRanges rs := by
            simpa [IPos.remRecords] using hw
          rcases hw' with h1 | h1 | h1
          · subst h1; rw [bytesCompare_self]; simp
          · have hpw : List.Pairwise recBelow (v0 :: rest) :=
              List.Pairwise.sublist hwf.2.sublist
                (wfRD_sorted_pairwise (wfRanges_head hwf.1))
            exact bytesCompare_lt_ne_gt ((List.pairwise_cons.mp hpw).1 w h1)
          · have habove := recsOfRanges_above hwf.1 w h1
            have hvle := wfRD_mem_le_max (wfRanges_head hwf.1) hvmem
            exact bytesCompare_lt_ne_gt (bytesCompare_le_lt_trans hvle habove)
        · intro b2 hres
          rw [heq] at hres
          simp at hres
      · have heq : moveBaseToGEKey key b =
            geKeyScan key (moveBaseToGERange key b).1 (moveBaseToGERange key b).2 := by
          unfold moveBaseToGEKey
          simp only [hv0]
          rw [if_neg hk]
        exact geKey_slow_spec key b hwf heq

/-- The base contents used by the C8 witness: one range `[0..2]` with
records at keys `[0]` and `[2]`, positioned at its header. -/
def c8wB : IPos :=
  IPos.header ⟨⟨"q", [0], [2]⟩, [⟨[0], [3], []⟩, ⟨[2], [7], []⟩]⟩ []

theorem c8_witness :
    WFpos c8wB ∧
    ((∀ v b2, moveBaseToGEKey [1] c8wB = (some v, b2) →
      (∃ rd, (moveBaseToGERange [1] c8wB).1 = some rd ∧ v ∈ rd.recs) ∧
      bytesCompare [1] v.key ≠ Ordering.gt ∧
      ∀ w ∈ c8wB.remRecords, bytesCompare [1] w.key ≠ Ordering.gt →
        bytesCompare v.key w.key ≠ Ordering.gt) ∧
    (∀ b2, moveBaseToGEKey [1] c8wB = (none, b2) →
      (moveBaseToGERange [1] c8wB).1 = none)) :=
  ⟨by decide, c8_geKey_never_crosses_range [1] c8wB (by decide)⟩

/-! ### Keys emitted to the writer, and the monotonicity invariant (C3) -/

/-- Key `a` sorts strictly below key `b`. -/
def keyBelow (a b : Bytes) : Prop := bytesCompare a b = Ordering.lt

instance : DecidableRel keyBelow := fun a b =>
  inferInstanceAs (Decidable (bytesCompare a b = Ordering.lt))

instance : IsTrans Bytes keyBelow :=
  ⟨fun _ _ _ h1 h2 => bytesCompare_lt_trans h1 h2⟩

/-- The keys a writer call commits: all record keys of a whole range, or
the single record key (§6: writing a range emits every record in it). -/
def WAction.wkeys : WAction → List Bytes
  | .range rd => rd.recs.map ValueRecord.key
  | .record v => [v.key]

/-- The concatenated key sequence of a writer output. -/
def emittedKeys : List WAction → List Bytes
  | [] => []
  | a :: o => a.wkeys ++ emittedKeys o

theorem emittedKeys_append (o1 o2 : List WAction) :
    emittedKeys (o1 ++ o2) = emittedKeys o1 ++ emittedKeys o2 := by
  induction o1 with
  | nil => simp [emittedKeys]
  | cons a o ih => simp [emittedKeys, ih]

/-- The remaining range headers at or after a position. -/
def IPos.remRD : IPos → List RangeData
  | .start rs => rs
  | .header r rs => r :: rs
  | .inRange r _ _ rs => r :: rs
  | .eos => []

/-- Everything already emitted sorts strictly below everything the
iterator can still deliver. -/
def outBelow (o : List WAction) (p : IPos) : Prop :=
  ∀ k1 ∈ emittedKeys o, ∀ w ∈ p.remRecords, bytesCompare k1 w.key = Ordering.lt

/-- Invariant 3 of §3 between two iterators: remaining ranges with equal
ids are equal (content addressing). -/
def idAgree (p q : IPos) : Prop :=
  ∀ r1 ∈ p.remRD, ∀ r2 ∈ q.remRD, r1.rng.id = r2.rng.id → r1 = r2

theorem remRecords_headerOrEos (rs : List RangeData) :
    (headerOrEos rs).2.remRecords = recsOfRanges rs := by
  cases rs <;> simp [headerOrEos, IPos.remRecords, recsOfRanges]

theorem remRD_headerOrEos (rs : List RangeData) :
    (headerOrEos rs).2.remRD = rs := by
  cases rs <;> simp [headerOrEos, IPos.remRD]

theorem remRecords_value_record {p : IPos} {v : ValueRecord} {w : Option RangeData}
    (h : p.value = (some v, w)) :
    p.remRecords = v :: (p.next).2.remRecords := by
  obtain ⟨r, rest, rs, rfl⟩ := value_fst_some_inv (by rw [h])
  cases rest with
  | nil =>
      simp only [IPos.next]
      rw [remRecords_headerOrEos]
      simp [IPos.remRecords]
  | cons v1 vs => simp [IPos.remRecords, IPos.next]

theorem value_header_inv {p : IPos} {rd : RangeData}
    (h : p.value = (none, some rd)) : ∃ rs, p = IPos.header rd rs := by
  cases p with
  | start rs => simp [IPos.value] at h
  | eos => simp [IPos.value] at h
  | inRange r cur rest rs => simp [IPos.value] at h
  | header r rs =>
      have : r = rd := by simpa [IPos.value] using h
      exact ⟨rs, by rw [this]⟩

theorem remRecords_value_header {p : IPos} {rd : RangeData}
    (h : p.value = (none, some rd)) :
    p.remRecords = rd.recs ++ (p.nextRange).2.remRecords := by
  obtain ⟨rs, rfl⟩ := value_header_inv h
  simp only [IPos.nextRange]
  rw [remRecords_headerOrEos]
  simp [IPos.remRecords]

theorem remRecords_next_sub (p : IPos) :
    ∀ w ∈ (p.next).2.remRecords, w ∈ p.remRecords := by
  intro w hw
  cases p with
  | start rs => rwa [IPos.next, remRecords_headerOrEos] at hw
  | eos => simpa [IPos.next, IPos.remRecords] using hw
  | header r rs =>
      cases hrecs : r.recs with
      | nil =>
          rw [IPos.next, hrecs, remRecords_headerOrEos] at hw
          simp only [IPos.remRecords]
          exact List.mem_append_right _ hw
      | cons v vs =>
          rw [IPos.next, hrecs] at hw
          simp only [IPos.remRecords] at hw ⊢
          rw [hrecs]
          simpa using hw
  | inRange r cur rest rs =>
      cases rest with
      | nil =>
          rw [IPos.next, remRecords_headerOrEos] at hw
          simp only [IPos.remRecords]
          simpa using Or.inr hw
      | cons v vs =>
          rw [IPos.next] at hw
          simp only [IPos.remRecords] at hw ⊢
          simpa using Or.inr (by simpa using hw)

theorem remRecords_nextRange_sub (p : IPos) :
    ∀ w ∈ (p.nextRange).2.remRecords, w ∈ p.remRecords := by
  intro w hw
  cases p with
  | start rs => rwa [IPos.nextRange, remRecords_headerOrEos] at hw
  | eos => simpa [IPos.nextRange, IPos.remRecords] using hw
  | header r rs =>
      rw [IPos.nextRange, remRecords_headerOrEos] at hw
      simp only [IPos.remRecords]
      exact List.mem_append_right _ hw
  | inRange r cur rest rs =>
      rw [IPos.nextRange, remRecords_headerOrEos] at hw
      simp only [IPos.remRecords]
      simpa using Or.inr (Or.inr hw)

theorem remRD_next_sub (p : IPos) :
    ∀ r ∈ (p.next).2.remRD, r ∈ p.remRD := by
  intro r hr
  cases p with
  | start rs => rwa [IPos.next, remRD_headerOrEos] at hr
  | eos => simpa [IPos.next, IPos.remRD] using hr
  | header r0 rs =>
      cases hrecs : r0.recs with
      | nil =>
          rw [IPos.next, hrecs, remRD_headerOrEos] at hr
          exact List.mem_cons_of_mem _ hr
      | cons v vs =>
          rw [IPos.next, hrecs] at hr
          simpa [IPos.remRD] using hr
  | inRange r0 cur rest rs =>
      cases rest with
      | nil =>
          rw [IPos.next, remRD_headerOrEos] at hr
          exact List.mem_cons_of_mem _ hr
      | cons v vs =>
          rw [IPos.next] at hr
          simpa [IPos.remRD] using hr

theorem remRD_nextRange_sub (p : IPos) :
    ∀ r ∈ (p.nextRange).2.remRD, r ∈ p.remRD := by
  intro r hr
  cases p with
  | start rs => rwa [IPos.nextRange, remRD_headerOrEos] at hr
  | eos => simpa [IPos.nextRange, IPos.remRD] using hr
  | header r0 rs =>
      rw [IPos.nextRange, remRD_headerOrEos] at hr
      exact List.mem_cons_of_mem _ hr
  | inRange r0 cur rest rs =>
      rw [IPos.nextRange, remRD_headerOrEos] at hr
      exact List.mem_cons_of_mem _ hr

theorem WFpos_headerOrEos {rs : List RangeData} (h : wfRanges rs) :
    WFpos (headerOrEos rs).2 := by
  cases rs with
  | nil => trivial
  | cons r rs' => exact h

theorem WFpos_next {p : IPos} (h : WFpos p) : WFpos (p.next).2 := by
  cases p with
  | start rs => exact WFpos_headerOrEos h
  | eos => trivial
  | header r rs =>
      cases hrecs : r.recs with
      | nil =>
          simp only [IPos.next, hrecs]
          exact WFpos_headerOrEos (wfRanges_tail h)
      | cons v vs =>
          simp only [IPos.next, hrecs]
          exact ⟨h, by rw [hrecs]⟩
  | inRange r cur rest rs =>
      cases rest with
      | nil =>
          simp only [IPos.next]
          exact WFpos_headerOrEos (wfRanges_tail h.1)
      | cons v vs =>
          simp only [IPos.next]
          exact ⟨h.1, (List.suffix_cons cur (v :: vs)).trans h.2⟩

theorem WFpos_nextRange {p : IPos} (h : WFpos p) : WFpos (p.nextRange).2 := by
  cases p with
  | start rs => exact WFpos_headerOrEos h
  | eos => trivial
  | header r rs => exact WFpos_headerOrEos (wfRanges_tail h)
  | inRange r cur rest rs => exact WFpos_headerOrEos (wfRanges_tail h.1)

theorem pairwise_recsOfRanges {rs : List RangeData} (h : wfRanges rs) :
    List.Pairwise recBelow (recsOfRanges rs) := by
  induction rs with
  | nil => simp [recsOfRanges]
  | cons r rs' ih =>
      rw [recsOfRanges, List.pairwise_append]
      refine ⟨wfRD_sorted_pairwise (wfRanges_head h), ih (wfRanges_tail h), ?_⟩
      intro a ha b hb
      have h1 := wfRD_mem_le_max (wfRanges_head h) ha
      have h2 := recsOfRanges_above h b hb
      exact bytesCompare_le_lt_trans h1 h2

theorem pairwise_remRecords {p : IPos} (h : WFpos p) :
    List.Pairwise recBelow p.remRecords := by
  cases p with
  | start rs => exact pairwise_recsOfRanges h
  | eos => simp [IPos.remRecords]
  | header r rs => exact pairwise_recsOfRanges h
  | inRange r cur rest rs =>
      show List.Pairwise recBelow ((cur :: rest) ++ recsOfRanges rs)
      rw [List.pairwise_append]
      refine ⟨List.Pairwise.sublist h.2.sublist
        (wfRD_sorted_pairwise (wfRanges_head h.1)),
        pairwise_recsOfRanges (wfRanges_tail h.1), ?_⟩
      intro a ha b hb
      have h1 := wfRD_mem_le_max (wfRanges_head h.1) (h.2.mem ha)
      have h2 := recsOfRanges_above h.1 b hb
      exact bytesCompare_le_lt_trans h1 h2

/-- After skipping a whole range at a header, everything remaining sorts
strictly above that range's `MaxKey`. -/
theorem maxKey_below_after_nextRange {p : IPos} {rd : RangeData}
    (hwf : WFpos p) (hv : p.value = (none, some rd)) :
    ∀ u ∈ (p.nextRange).2.remRecords,
      bytesCompare rd.rng.maxKey u.key = Ordering.lt := by
  obtain ⟨rs, rfl⟩ := value_header_inv hv
  intro u hu
  simp only [IPos.nextRange] at hu
  rw [remRecords_headerOrEos] at hu
  exact recsOfRanges_above hwf u hu

/-- At a header, everything remaining is at or above the range's
`MinKey`. -/
theorem minKey_le_remRecords {p : IPos} {rd : RangeData}
    (hwf : WFpos p) (hv : p.value = (none, some rd)) :
    ∀ u ∈ p.remRecords, bytesCompare rd.rng.minKey u.key ≠ Ordering.gt := by
  obtain ⟨rs, rfl⟩ := value_header_inv hv
  intro u hu
  simp only [IPos.remRecords] at hu
  rcases List.mem_append.mp hu with h1 | h1
  · exact wfRD_min_le_mem (wfRanges_head hwf) h1
  · have h2 := recsOfRanges_above hwf u h1
    have h3 := wfRD_min_le_max (wfRanges_head hwf)
    exact bytesCompare_lt_ne_gt (bytesCompare_le_lt_trans h3 h2)

/-- At a record, everything remaining is at or above the current key. -/
theorem curKey_le_remRecords {p : IPos} {v : ValueRecord} {w : Option RangeData}
    (hwf : WFpos p) (hv : p.value = (some v, w)) :
    ∀ u ∈ p.remRecords, bytesCompare v.key u.key ≠ Ordering.gt := by
  intro u hu
  rw [remRecords_value_record hv] at hu
  rcases List.mem_cons.mp hu with h1 | h1
  · subst h1; rw [bytesCompare_self]; simp
  · have hpw := pairwise_remRecords hwf
    rw [remRecords_value_record hv] at hpw
    exact bytesCompare_lt_ne_gt ((List.pairwise_cons.mp hpw).1 u h1)

/-- At a record, everything after the advance is strictly above the
current key. -/
theorem curKey_below_after_next {p : IPos} {v : ValueRecord} {w : Option RangeData}
    (hwf : WFpos p) (hv : p.value = (some v, w)) :
    ∀ u ∈ (p.next).2.remRecords, bytesCompare v.key u.key = Ordering.lt := by
  intro u hu
  have hpw := pairwise_remRecords hwf
  rw [remRecords_value_record hv] at hpw
  exact (List.pairwise_cons.mp hpw).1 u hu

/-- Keys of a range at a header sort strictly below everything after the
range-level advance. -/
theorem rangeKeys_below_after_nextRange {p : IPos} {rd : RangeData}
    (hwf : WFpos p) (hv : p.value = (none, some rd)) :
    ∀ kv ∈ rd.recs, ∀ u ∈ (p.nextRange).2.remRecords,
      bytesCompare kv.key u.key = Ordering.lt := by
  intro kv hkv u hu
  obtain ⟨rs, rfl⟩ := value_header_inv hv
  have h1 := wfRD_mem_le_max (wfRanges_head hwf) hkv
  exact bytesCompare_le_lt_trans h1 (maxKey_below_after_nextRange hwf hv u hu)

/-- The C3 main-loop invariant: emitted keys strictly increasing, both
sides well-formed, everything emitted strictly below everything still to
come on either side, and invariant 3 (id agreement) between the sides. -/
def InvS (st : MState) : Prop :=
  List.Pairwise keyBelow (emittedKeys st.output) ∧
  WFpos st.source ∧ WFpos st.dest ∧
  outBelow st.output st.source ∧ outBelow st.output st.dest ∧
  idAgree st.source st.dest

/-- One of: unmoved, record-level advance, range-level advance. -/
def advOf (p p' : IPos) : Prop :=
  p' = p ∨ p' = (p.next).2 ∨ p' = (p.nextRange).2

theorem advOf_wf {p p' : IPos} (h : advOf p p') (hwf : WFpos p) : WFpos p' := by
  rcases h with rfl | rfl | rfl
  · exact hwf
  · exact WFpos_next hwf
  · exact WFpos_nextRange hwf

theorem advOf_remRecords_sub {p p' : IPos} (h : advOf p p') :
    ∀ w ∈ p'.remRecords, w ∈ p.remRecords := by
  rcases h with rfl | rfl | rfl
  · exact fun w hw => hw
  · exact remRecords_next_sub p
  · exact remRecords_nextRange_sub p

theorem advOf_remRD_sub {p p' : IPos} (h : advOf p p') :
    ∀ r ∈ p'.remRD, r ∈ p.remRD := by
  rcases h with rfl | rfl | rfl
  · exact fun r hr => hr
  · exact remRD_next_sub p
  · exact remRD_nextRange_sub p

theorem InvS_skip {st st' : MState} (hinv : InvS st)
    (ho : st'.output = st.output)
    (hs : advOf st.source st'.source) (hd : advOf st.dest st'.dest) : InvS st' := by
  obtain ⟨hpw, hws, hwd, hbs, hbd, hag⟩ := hinv
  refine ⟨by rw [ho]; exact hpw, advOf_wf hs hws, advOf_wf hd hwd, ?_, ?_, ?_⟩
  · intro k1 hk1 w hw
    rw [ho] at hk1
    exact hbs k1 hk1 w (advOf_remRecords_sub hs w hw)
  · intro k1 hk1 w hw
    rw [ho] at hk1
    exact hbd k1 hk1 w (advOf_remRecords_sub hd w hw)
  · intro r1 hr1 r2 hr2 hid
    exact hag r1 (advOf_remRD_sub hs r1 hr1) r2 (advOf_remRD_sub hd r2 hr2) hid

theorem InvS_emit_src_record {st st' : MState} {v : ValueRecord}
    {w : Option RangeData} (hinv : InvS st)
    (hv : st.source.value = (some v, w))
    (ho : st'.output = st.output ++ [WAction.record v])
    (hs : st'.source = (st.source.next).2) (hd : st'.dest = st.dest)
    (hcross : ∀ u ∈ st.dest.remRecords,
      bytesCompare v.key u.key = Ordering.lt) : InvS st' := by
  obtain ⟨hpw, hws, hwd, hbs, hbd, hag⟩ := hinv
  have hvmem : v ∈ st.source.remRecords := by
    rw [remRecords_value_record hv]; simp
  have hek : emittedKeys st'.output = emittedKeys st.output ++ [v.key] := by
    rw [ho, emittedKeys_append]; rfl
  refine ⟨?_, by rw [hs]; exact WFpos_next hws, by rw [hd]; exact hwd, ?_, ?_, ?_⟩
  · rw [hek, List.pairwise_append]
    refine ⟨hpw, by simp, ?_⟩
    intro a ha b hb
    have : b = v.key := by simpa using hb
    subst this
    exact hbs a ha v hvmem
  · intro k1 hk1 u hu
    rw [hek] at hk1
    rw [hs] at hu
    rcases List.mem_append.mp hk1 with h1 | h1
    · exact hbs k1 h1 u (remRecords_next_sub _ u hu)
    · have : k1 = v.key := by simpa using h1
      subst this
      exact curKey_below_after_next hws hv u hu
  · intro k1 hk1 u hu
    rw [hek] at hk1
    rw [hd] at hu
    rcases List.mem_append.mp hk1 with h1 | h1
    · exact hbd k1 h1 u hu
    · have : k1 = v.key := by simpa using h1
      subst this
      exact hcross u hu
  · intro r1 hr1 r2 hr2 hid
    rw [hs] at hr1
    rw [hd] at hr2
    exact hag r1 (remRD_next_sub _ r1 hr1) r2 hr2 hid

theorem InvS_emit_dst_record {st st' : MState} {v : ValueRecord}
    {w : Option RangeData} (hinv : InvS st)
    (hv : st.dest.value = (some v, w))
    (ho : st'.output = st.output ++ [WAction.record v])
    (hd : st'.dest = (st.dest.next).2) (hs : st'.source = st.source)
    (hcross : ∀ u ∈ st.source.remRecords,
      bytesCompare v.key u.key = Ordering.lt) : InvS st' := by
  obtain ⟨hpw, hws, hwd, hbs, hbd, hag⟩ := hinv
  have hvmem : v ∈ st.dest.remRecords := by
    rw [remRecords_value_record hv]; simp
  have hek : emittedKeys st'.output = emittedKeys st.output ++ [v.key] := by
    rw [ho, emittedKeys_append]; rfl
  refine ⟨?_, by rw [hs]; exact hws, by rw [hd]; exact WFpos_next hwd, ?_, ?_, ?_⟩
  · rw [hek, List.pairwise_append]
    refine ⟨hpw, by simp, ?_⟩
    intro a ha b hb
    have : b = v.key := by simpa using hb
    subst this
    exact hbd a ha v hvmem
  · intro k1 hk1 u hu
    rw [hek] at hk1
    rw [hs] at hu
    rcases List.mem_append.mp hk1 with h1 | h1
    · exact hbs k1 h1 u hu
    · have : k1 = v.key := by simpa using h1
      subst this
      exact hcross u hu
  · intro k1 hk1 u hu
    rw [hek] at hk1
    rw [hd] at hu
    rcases List.mem_append.mp hk1 with h1 | h1
    · exact hbd k1 h1 u (remRecords_next_sub _ u hu)
    · have : k1 = v.key := by simpa using h1
      subst this
      exact curKey_below_after_next hwd hv u hu
  · intro r1 hr1 r2 hr2 hid
    rw [hs] at hr1
    rw [hd] at hr2
    exact hag r1 hr1 r2 (remRD_next_sub _ r2 hr2) hid

theorem InvS_emit_record_both {st st' : MState} {u sv dv : ValueRecord}
    {w1 w2 : Option RangeData} (hinv : InvS st)
    (hvs : st.source.value = (some sv, w1)) (hvd : st.dest.value = (some dv, w2))
    (hu : u.key = sv.key) (hkeys : sv.key = dv.key)
    (ho : st'.output = st.output ++ [WAction.record u])
    (hs : st'.source = (st.source.next).2) (hd : st'.dest = (st.dest.next).2) :
    InvS st' := by
  obtain ⟨hpw, hws, hwd, hbs, hbd, hag⟩ := hinv
  have hvmem : sv ∈ st.source.remRecords := by
    rw [remRecords_value_record hvs]; simp
  have hek : emittedKeys st'.output = emittedKeys st.output ++ [u.key] := by
    rw [ho, emittedKeys_append]; rfl
  refine ⟨?_, by rw [hs]; exact WFpos_next hws, by rw [hd]; exact WFpos_next hwd,
    ?_, ?_, ?_⟩
  · rw [hek, List.pairwise_append]
    refine ⟨hpw, by simp, ?_⟩
    intro a ha b hb
    have : b = u.key := by simpa using hb
    subst this
    rw [hu]
    exact hbs a ha sv hvmem
  · intro k1 hk1 x hx
    rw [hek] at hk1
    rw [hs] at hx
    rcases List.mem_append.mp hk1 with h1 | h1
    · exact hbs k1 h1 x (remRecords_next_sub _ x hx)
    · have : k1 = u.key := by simpa using h1
      subst this
      rw [hu]
      exact curKey_below_after_next hws hvs x hx
  · intro k1 hk1 x hx
    rw [hek] at hk1
    rw [hd] at hx
    rcases List.mem_append.mp hk1 with h1 | h1
    · exact hbd k1 h1 x (remRecords_next_sub _ x hx)
    · have : k1 = u.key := by simpa using h1
      subst this
      rw [hu, hkeys]
      exact curKey_below_after_next hwd hvd x hx
  · intro r1 hr1 r2 hr2 hid
    rw [hs] at hr1
    rw [hd] at hr2
    exact hag r1 (remRD_next_sub _ r1 hr1) r2 (remRD_next_sub _ r2 hr2) hid

theorem InvS_emit_src_range {st st' : MState} {rd : RangeData} (hinv : InvS st)
    (hv : st.source.value = (none, some rd))
    (ho : st'.output = st.output ++ [WAction.range rd])
    (hs : st'.source = (st.source.nextRange).2)
    (hd : st'.dest = st.dest ∨ st'.dest = (st.dest.nextRange).2)
    (hcross : ∀ u ∈ st'.dest.remRecords,
      bytesCompare rd.rng.maxKey u.key = Ordering.lt) : InvS st' := by
  obtain ⟨hpw, hws, hwd, hbs, hbd, hag⟩ := hinv
  have hwfrd : wfRD rd := by
    obtain ⟨rs, hps⟩ := value_header_inv hv
    rw [hps] at hws
    exact wfRanges_head hws
  have hrecsmem : ∀ kv ∈ rd.recs, kv ∈ st.source.remRecords := by
    intro kv hkv
    rw [remRecords_value_header hv]
    exact List.mem_append_left _ hkv
  have hek : emittedKeys st'.output =
      emittedKeys st.output ++ rd.recs.map ValueRecord.key := by
    rw [ho, emittedKeys_append]
    simp [emittedKeys, WAction.wkeys]
  have hdadv : advOf st.dest st'.dest := by
    rcases hd with h | h
    · exact Or.inl h
    · exact Or.inr (Or.inr h)
  refine ⟨?_, by rw [hs]; exact WFpos_nextRange hws, advOf_wf hdadv hwd, ?_, ?_, ?_⟩
  · rw [hek, List.pairwise_append]
    refine ⟨hpw, ?_, ?_⟩
    · exact List.pairwise_map.mpr (wfRD_sorted_pairwise hwfrd)
    · intro a ha b hb
      obtain ⟨kv, hkv, rfl⟩ := List.mem_map.mp hb
      exact hbs a ha kv (hrecsmem kv hkv)
  · intro k1 hk1 x hx
    rw [hek] at hk1
    rw [hs] at hx
    rcases List.mem_append.mp hk1 with h1 | h1
    · exact hbs k1 h1 x (remRecords_nextRange_sub _ x hx)
    · obtain ⟨kv, hkv, rfl⟩ := List.mem_map.mp h1
      exact rangeKeys_below_after_nextRange hws hv kv hkv x hx
  · intro k1 hk1 x hx
    rw [hek] at hk1
    rcases List.mem_append.mp hk1 with h1 | h1
    · exact hbd k1 h1 x (advOf_remRecords_sub hdadv x hx)
    · obtain ⟨kv, hkv, rfl⟩ := List.mem_map.mp h1
      exact bytesCompare_le_lt_trans (wfRD_mem_le_max hwfrd hkv) (hcross x hx)
  · intro r1 hr1 r2 hr2 hid
    rw [hs] at hr1
    exact hag r1 (remRD_nextRange_sub _ r1 hr1) r2 (advOf_remRD_sub hdadv r2 hr2) hid

theorem InvS_emit_dst_range {st st' : MState} {rd : RangeData} (hinv : InvS st)
    (hv : st.dest.value = (none, some rd))
    (ho : st'.output = st.output ++ [WAction.range rd])
    (hd : st'.dest = (st.dest.nextRange).2)
    (hs : st'.source = st.source ∨ st'.source = (st.source.nextRange).2)
    (hcross : ∀ u ∈ st'.source.remRecords,
      bytesCompare rd.rng.maxKey u.key = Ordering.lt) : InvS st' := by
  obtain ⟨hpw, hws, hwd, hbs, hbd, hag⟩ := hinv
  have hwfrd : wfRD rd := by
    obtain ⟨rs, hps⟩ := value_header_inv hv
    rw [hps] at hwd
    exact wfRanges_head hwd
  have hrecsmem : ∀ kv ∈ rd.recs, kv ∈ st.dest.remRecords := by
    intro kv hkv
    rw [remRecords_value_header hv]
    exact List.mem_append_left _ hkv
  have hek : emittedKeys st'.output =
      emittedKeys st.output ++ rd.recs.map ValueRecord.key := by
    rw [ho, emittedKeys_append]
    simp [emittedKeys, WAction.wkeys]
  have hsadv : advOf st.source st'.source := by
    rcases hs with h | h
    · exact Or.inl h
    · exact Or.inr (Or.inr h)
  refine ⟨?_, advOf_wf hsadv hws, by rw [hd]; exact WFpos_nextRange hwd, ?_, ?_, ?_⟩
  · rw [hek, List.pairwise_append]
    refine ⟨hpw, ?_, ?_⟩
    · exact List.pairwise_map.mpr (wfRD_sorted_pairwise hwfrd)
    · intro a ha b hb
      obtain ⟨kv, hkv, rfl⟩ := List.mem_map.mp hb
      exact hbd a ha kv (hrecsmem kv hkv)
  · intro k1 hk1 x hx
    rw [hek] at hk1
    rcases List.mem_append.mp hk1 with h1 | h1
    · exact hbs k1 h1 x (advOf_remRecords_sub hsadv x hx)
    · obtain ⟨kv, hkv, rfl⟩ := List.mem_map.mp h1
      exact bytesCompare_le_lt_trans (wfRD_mem_le_max hwfrd hkv) (hcross x hx)
  · intro k1 hk1 x hx
    rw [hek] at hk1
    rw [hd] at hx
    rcases List.mem_append.mp hk1 with h1 | h1
    · exact hbd k1 h1 x (remRecords_nextRange_sub _ x hx)
    · obtain ⟨kv, hkv, rfl⟩ := List.mem_map.mp h1
      exact rangeKeys_below_after_nextRange hwd hv kv hkv x hx
  · intro r1 hr1 r2 hr2 hid
    rw [hd] at hr2
    exact hag r1 (advOf_remRD_sub hsadv r1 hr1) r2 (remRD_nextRange_sub _ r2 hr2) hid

theorem value_snd_mem_remRD {p : IPos} {rd : RangeData}
    (h : p.value.2 = some rd) : rd ∈ p.remRD := by
  cases p with
  | start rs => simp [IPos.value] at h
  | eos => simp [IPos.value] at h
  | header r rs =>
      have : r = rd := by simpa [IPos.value] using h
      subst this
      simp [IPos.remRD]
  | inRange r cur rest rs =>
      have : r = rd := by simpa [IPos.value] using h
      subst this
      simp [IPos.remRD]

theorem handleBothRanges_inv (sr dr : RangeData) (st st' : MState)
    (e : Option MergeError)
    (hvs : st.source.value = (none, some sr))
    (hvd : st.dest.value = (none, some dr))
    (hinv : InvS st) (h : handleBothRanges sr dr st = (e, st')) : InvS st' := by
  have hws : WFpos st.source := hinv.2.1
  have hwd : WFpos st.dest := hinv.2.2.1
  have hag : idAgree st.source st.dest := hinv.2.2.2.2.2
  simp only [handleBothRanges] at h
  split at h
  · -- identical ids: emit the source range, advance both
    next hid =>
      injection h with he hst
      subst hst
      have hsrdr : sr = dr :=
        hag sr (value_snd_mem_remRD (by rw [hvs])) dr
          (value_snd_mem_remRD (by rw [hvd])) hid
      refine InvS_emit_src_range hinv hvs rfl rfl (Or.inr rfl) ?_
      intro u hu
      rw [hsrdr]
      exact maxKey_below_after_nextRange hwd hvd u hu
  · split at h
    · -- source strictly before dest
      next hlt =>
        split at h
        · next b hp =>
            split at h
            · -- dest deleted the range: skip, advance source
              injection h with he hst
              subst hst
              exact InvS_skip hinv rfl (Or.inr (Or.inr rfl)) (Or.inl rfl)
            · split at h
              · -- source added the range: emit it
                injection h with he hst
                subst hst
                refine InvS_emit_src_range hinv hvs rfl rfl (Or.inl rfl) ?_
                intro u hu
                have h1 := minKey_le_remRecords hwd hvd u hu
                exact bytesCompare_lt_le_trans hlt h1
              · -- both changed: descend
                injection h with he hst
                subst hst
                exact InvS_skip hinv rfl (Or.inr (Or.inl rfl)) (Or.inr (Or.inl rfl))
        · -- base exhausted: source added the range
          injection h with he hst
          subst hst
          refine InvS_emit_src_range hinv hvs rfl rfl (Or.inl rfl) ?_
          intro u hu
          have h1 := minKey_le_remRecords hwd hvd u hu
          exact bytesCompare_lt_le_trans hlt h1
    · split at h
      · -- dest strictly before source
        next hlt2 =>
          split at h
          · next b hp =>
              split at h
              · -- dest added the range: emit it
                injection h with he hst
                subst hst
                refine InvS_emit_dst_range hinv hvd rfl rfl (Or.inl rfl) ?_
                intro u hu
                have h1 := minKey_le_remRecords hws hvs u hu
                exact bytesCompare_lt_le_trans hlt2 h1
              · split at h
                · -- source deleted the range: skip, advance dest
                  injection h with he hst
                  subst hst
                  exact InvS_skip hinv rfl (Or.inl rfl) (Or.inr (Or.inr rfl))
                · injection h with he hst
                  subst hst
                  exact InvS_skip hinv rfl (Or.inr (Or.inl rfl)) (Or.inr (Or.inl rfl))
          · -- base exhausted falls into the skip branch
            injection h with he hst
            subst hst
            exact InvS_skip hinv rfl (Or.inl rfl) (Or.inr (Or.inr rfl))
      · split at h
        · -- identical bounds
          next hbounds =>
            split at h
            · next b hp =>
                split at h
                · split at h
                  · -- dest added changes: emit the dest range, advance both
                    next hsid =>
                      injection h with he hst
                      subst hst
                      refine InvS_emit_dst_range hinv hvd rfl rfl (Or.inr rfl) ?_
                      intro u hu
                      rw [← hbounds.2]
                      exact maxKey_below_after_nextRange hws hvs u hu
                  · -- source added changes: emit the source range, advance both
                    injection h with he hst
                    subst hst
                    refine InvS_emit_src_range hinv hvs rfl rfl (Or.inr rfl) ?_
                    intro u hu
                    rw [hbounds.2]
                    exact maxKey_below_after_nextRange hwd hvd u hu
                · injection h with he hst
                  subst hst
                  exact InvS_skip hinv rfl (Or.inr (Or.inl rfl)) (Or.inr (Or.inl rfl))
            · injection h with he hst
              subst hst
              exact InvS_skip hinv rfl (Or.inr (Or.inl rfl)) (Or.inr (Or.inl rfl))
        · -- overlapping: descend both
          injection h with he hst
          subst hst
          exact InvS_skip hinv rfl (Or.inr (Or.inl rfl)) (Or.inr (Or.inl rfl))

theorem handleBothKeys_inv (sv dv : ValueRecord) (st st' : MState)
    (e : Option MergeError) (ws wd : Option RangeData)
    (hvs : st.source.value = (some sv, ws))
    (hvd : st.dest.value = (some dv, wd))
    (hinv : InvS st) (h : handleBothKeys sv dv st = (e, st')) : InvS st' := by
  have hws : WFpos st.source := hinv.2.1
  have hwd : WFpos st.dest := hinv.2.2.1
  simp only [handleBothKeys] at h
  split at h
  · -- source key before dest key
    next hlt =>
      split at h
      · next b hp =>
          split at h
          · -- dest deleted this record: skip, advance source
            injection h with he hst
            subst hst
            exact InvS_skip hinv rfl (Or.inr (Or.inl rfl)) (Or.inl rfl)
          · split at h
            · -- conflict: state unchanged but for the base
              injection h with he hst
              subst hst
              exact InvS_skip hinv rfl (Or.inl rfl) (Or.inl rfl)
            · -- source added this record: emit it
              injection h with he hst
              subst hst
              refine InvS_emit_src_record hinv hvs rfl rfl rfl ?_
              intro u hu
              exact bytesCompare_lt_le_trans hlt (curKey_le_remRecords hwd hvd u hu)
      · injection h with he hst
        subst hst
        refine InvS_emit_src_record hinv hvs rfl rfl rfl ?_
        intro u hu
        exact bytesCompare_lt_le_trans hlt (curKey_le_remRecords hwd hvd u hu)
  · split at h
    · -- dest key before source key
      next hgt =>
        have hlt2 : bytesCompare dv.key sv.key = Ordering.lt :=
          bytesCompare_gt_iff.mp hgt
        split at h
        · next b hp =>
            split at h
            · injection h with he hst
              subst hst
              exact InvS_skip hinv rfl (Or.inl rfl) (Or.inr (Or.inl rfl))
            · split at h
              · injection h with he hst
                subst hst
                exact InvS_skip hinv rfl (Or.inl rfl) (Or.inl rfl)
              · injection h with he hst
                subst hst
                refine InvS_emit_dst_record hinv hvd rfl rfl rfl ?_
                intro u hu
                exact bytesCompare_lt_le_trans hlt2 (curKey_le_remRecords hws hvs u hu)
        · injection h with he hst
          subst hst
          refine InvS_emit_dst_record hinv hvd rfl rfl rfl ?_
          intro u hu
          exact bytesCompare_lt_le_trans hlt2 (curKey_le_remRecords hws hvs u hu)
    · -- identical keys
      next hnlt hngt =>
        have hkeq : sv.key = dv.key := by
          rcases hcc : bytesCompare sv.key dv.key with _ | _ | _
          · exact absurd hcc hnlt
          · exact (bytesCompare_eq_iff sv.key dv.key).mp hcc
          · exact absurd hcc hngt
        split at h
        · -- same identity: emit once, advance both
          injection h with he hst
          subst hst
          exact InvS_emit_record_both hinv hvs hvd rfl hkeq rfl rfl rfl
        · split at h
          · next b hp =>
              split at h
              · -- dest changed the record: emit the dest record
                injection h with he hst
                subst hst
                exact InvS_emit_record_both hinv hvs hvd hkeq.symm hkeq rfl rfl rfl
              · split at h
                · -- source changed the record: emit the source record
                  injection h with he hst
                  subst hst
                  exact InvS_emit_record_both hinv hvs hvd rfl hkeq rfl rfl rfl
                · -- conflict
                  injection h with he hst
                  subst hst
                  exact InvS_skip hinv rfl (Or.inl rfl) (Or.inl rfl)
          · injection h with he hst
            subst hst
            exact InvS_skip hinv rfl (Or.inl rfl) (Or.inl rfl)

theorem handleDestRangeSourceKey_inv (dr : RangeData) (sv : ValueRecord)
    (st st' : MState) (e : Option MergeError) (ws : Option RangeData)
    (hvs : st.source.value = (some sv, ws))
    (hvd : st.dest.value = (none, some dr))
    (hinv : InvS st) (h : handleDestRangeSourceKey dr sv st = (e, st')) :
    InvS st' := by
  have hwd : WFpos st.dest := hinv.2.2.1
  simp only [handleDestRangeSourceKey] at h
  split at h
  · -- source record strictly before the dest range
    next hgt =>
      have hlt : bytesCompare sv.key dr.rng.minKey = Ordering.lt :=
        bytesCompare_gt_iff.mp hgt
      split at h
      · next b hp =>
          split at h
          · injection h with he hst
            subst hst
            exact InvS_skip hinv rfl (Or.inr (Or.inl rfl)) (Or.inl rfl)
          · split at h
            · injection h with he hst
              subst hst
              exact InvS_skip hinv rfl (Or.inl rfl) (Or.inl rfl)
            · injection h with he hst
              subst hst
              refine InvS_emit_src_record hinv hvs rfl rfl rfl ?_
              intro u hu
              exact bytesCompare_lt_le_trans hlt (minKey_le_remRecords hwd hvd u hu)
      · injection h with he hst
        subst hst
        refine InvS_emit_src_record hinv hvs rfl rfl rfl ?_
        intro u hu
        exact bytesCompare_lt_le_trans hlt (minKey_le_remRecords hwd hvd u hu)
  · split at h
    · -- dest range strictly before the source record
      split at h
      · next b hp =>
          split at h
          · injection h with he hst
            subst hst
            exact InvS_skip hinv rfl (Or.inl rfl) (Or.inr (Or.inr rfl))
          · injection h with he hst
            subst hst
            exact InvS_skip hinv rfl (Or.inl rfl) (Or.inr (Or.inl rfl))
      · injection h with he hst
        subst hst
        exact InvS_skip hinv rfl (Or.inl rfl) (Or.inr (Or.inl rfl))
    · -- key inside the dest range bounds: descend dest
      injection h with he hst
      subst hst
      exact InvS_skip hinv rfl (Or.inl rfl) (Or.inr (Or.inl rfl))

theorem handleSourceRangeDestKey_inv (sr : RangeData) (dv : ValueRecord)
    (st st' : MState) (e : Option MergeError) (wd : Option RangeData)
    (hvs : st.source.value = (none, some sr))
    (hvd : st.dest.value = (some dv, wd))
    (hinv : InvS st) (h : handleSourceRangeDestKey sr dv st = (e, st')) :
    InvS st' := by
  have hws : WFpos st.source := hinv.2.1
  simp only [handleSourceRangeDestKey] at h
  split at h
  · -- dest record strictly before the source range
    next hgt =>
      have hlt : bytesCompare dv.key sr.rng.minKey = Ordering.lt :=
        bytesCompare_gt_iff.mp hgt
      split at h
      · next b hp =>
          split at h
          · -- the merge.go:331 branch: the *source* iterator advances
            injection h with he hst
            subst hst
            exact InvS_skip hinv rfl (Or.inr (Or.inl rfl)) (Or.inl rfl)
          · split at h
            · injection h with he hst
              subst hst
              exact InvS_skip hinv rfl (Or.inl rfl) (Or.inl rfl)
            · injection h with he hst
              subst hst
              refine InvS_emit_dst_record hinv hvd rfl rfl rfl ?_
              intro u hu
              exact bytesCompare_lt_le_trans hlt (minKey_le_remRecords hws hvs u hu)
      · injection h with he hst
        subst hst
        refine InvS_emit_dst_record hinv hvd rfl rfl rfl ?_
        intro u hu
        exact bytesCompare_lt_le_trans hlt (minKey_le_remRecords hws hvs u hu)
  · split at h
    · -- source range strictly before the dest record
      split at h
      · next b hp =>
          split at h
          · injection h with he hst
            subst hst
            exact InvS_skip hinv rfl (Or.inr (Or.inr rfl)) (Or.inl rfl)
          · injection h with he hst
            subst hst
            exact InvS_skip hinv rfl (Or.inr (Or.inl rfl)) (Or.inl rfl)
      · injection h with he hst
        subst hst
        exact InvS_skip hinv rfl (Or.inr (Or.inl rfl)) (Or.inl rfl)
    · injection h with he hst
      subst hst
      exact InvS_skip hinv rfl (Or.inr (Or.inl rfl)) (Or.inl rfl)

/-- Every merge step preserves the C3 invariant. -/
theorem mergeStep_inv (st st' : MState) (e : Option MergeError)
    (hinv : InvS st) (h : mergeStep st = (e, st')) : InvS st' := by
  unfold mergeStep at h
  split at h
  · next heq1 heq2 => exact handleBothRanges_inv _ _ st st' e heq1 heq2 hinv h
  · next heq1 heq2 => exact handleDestRangeSourceKey_inv _ _ st st' e _ heq1 heq2 hinv h
  · next heq1 heq2 => exact handleSourceRangeDestKey_inv _ _ st st' e _ heq1 heq2 hinv h
  · next heq1 heq2 => exact handleBothKeys_inv _ _ st st' e _ _ heq1 heq2 hinv h
  · injection h with he hst
    subst hst
    exact hinv

/-- The drain-phase invariant for C3. -/
def InvD (d : DState) : Prop :=
  List.Pairwise keyBelow (emittedKeys d.output) ∧ WFpos d.iter ∧
  outBelow d.output d.iter

theorem InvD_record_step (d : DState) (v : ValueRecord) (w : Option RangeData)
    (q : Option ValueRecord × IPos)
    (hv : d.iter.value = (some v, w)) (hinv : InvD d) :
    InvD ⟨(d.iter.next).2, q.2,
      (match q.1 with
        | some b => if b.identity ≠ v.identity then d.output ++ [WAction.record v]
                    else d.output
        | none => d.output ++ [WAction.record v]), d.polls + 1⟩ := by
  obtain ⟨hpw, hwf, hout⟩ := hinv
  have hvmem : v ∈ d.iter.remRecords := by
    rw [remRecords_value_record hv]; simp
  have hemit : InvD ⟨(d.iter.next).2, q.2, d.output ++ [WAction.record v],
      d.polls + 1⟩ := by
    refine ⟨?_, WFpos_next hwf, ?_⟩
    · rw [emittedKeys_append, List.pairwise_append]
      refine ⟨hpw, by simp [emittedKeys, WAction.wkeys], ?_⟩
      intro a ha b hb
      have : b = v.key := by simpa [emittedKeys, WAction.wkeys] using hb
      subst this
      exact hout a ha v hvmem
    · intro k1 hk1 u hu
      rw [emittedKeys_append] at hk1
      rcases List.mem_append.mp hk1 with h1 | h1
      · exact hout k1 h1 u (remRecords_next_sub _ u hu)
      · have : k1 = v.key := by simpa [emittedKeys, WAction.wkeys] using h1
        subst this
        exact curKey_below_after_next hwf hv u hu
  have hskip : InvD ⟨(d.iter.next).2, q.2, d.output, d.polls + 1⟩ := by
    refine ⟨hpw, WFpos_next hwf, ?_⟩
    intro k1 hk1 u hu
    exact hout k1 hk1 u (remRecords_next_sub _ u hu)
  cases hq1 : q.1 with
  | none => exact hemit
  | some b =>
      by_cases hid : b.identity ≠ v.identity
      · simpa [hid] using hemit
      · simpa [hid] using hskip

theorem InvD_range_step (d : DState) (ir : RangeData)
    (q : Option RangeData × IPos)
    (hv : d.iter.value = (none, some ir)) (hinv : InvD d) :
    InvD ⟨(d.iter.nextRange).2, q.2,
      (match q.1 with
        | some b => if b.rng.id ≠ ir.rng.id then d.output ++ [WAction.range ir]
                    else d.output
        | none => d.output ++ [WAction.range ir]), d.polls + 1⟩ := by
  obtain ⟨hpw, hwf, hout⟩ := hinv
  have hwfir : wfRD ir := by
    obtain ⟨rs, hps⟩ := value_header_inv hv
    rw [hps] at hwf
    exact wfRanges_head hwf
  have hrecsmem : ∀ kv ∈ ir.recs, kv ∈ d.iter.remRecords := by
    intro kv hkv
    rw [remRecords_value_header hv]
    exact List.mem_append_left _ hkv
  have hemit : InvD ⟨(d.iter.nextRange).2, q.2, d.output ++ [WAction.range ir],
      d.polls + 1⟩ := by
    refine ⟨?_, WFpos_nextRange hwf, ?_⟩
    · rw [emittedKeys_append, List.pairwise_append]
      refine ⟨hpw, ?_, ?_⟩
      · simp only [emittedKeys, WAction.wkeys, List.append_nil]
        exact List.pairwise_map.mpr (wfRD_sorted_pairwise hwfir)
      · intro a ha b hb
        obtain ⟨kv, hkv, rfl⟩ : ∃ kv ∈ ir.recs, kv.key = b := by
          simpa [emittedKeys, WAction.wkeys] using hb
        exact hout a ha kv (hrecsmem kv hkv)
    · intro k1 hk1 u hu
      rw [emittedKeys_append] at hk1
      rcases List.mem_append.mp hk1 with h1 | h1
      · exact hout k1 h1 u (remRecords_nextRange_sub _ u hu)
      · obtain ⟨kv, hkv, rfl⟩ : ∃ kv ∈ ir.recs, kv.key = k1 := by
          simpa [emittedKeys, WAction.wkeys] using h1
        exact rangeKeys_below_after_nextRange hwf hv kv hkv u hu
  have hskip : InvD ⟨(d.iter.nextRange).2, q.2, d.output, d.polls + 1⟩ := by
    refine ⟨hpw, WFpos_nextRange hwf, ?_⟩
    intro k1 hk1 u hu
    exact hout k1 hk1 u (remRecords_nextRange_sub _ u hu)
  cases hq1 : q.1 with
  | none => exact hemit
  | some b =>
      by_cases hid : b.rng.id ≠ ir.rng.id
      · simpa [hid] using hemit
      · simpa [hid] using hskip

theorem handleAll_nilCase (cancel : Nat → Bool) (d : DState)
    (hc : cancel d.polls = false) (hv : d.iter.value = (none, none)) :
    handleAll cancel d = (some .nilDeref, d) := by
  rw [handleAll.eq_def]
  simp only [hc, Bool.false_eq_true, if_false]
  rw [hv]

/-- The drain loop preserves the invariant down to its final state. -/
theorem handleAll_inv_aux (cancel : Nat → Bool) :
    ∀ (n : Nat) (d : DState), d.iter.size ≤ n → InvD d →
    ∀ e d', handleAll cancel d = (e, d') → InvD d' := by
  intro n
  induction n with
  | zero =>
      intro d hsz hinv e d' h
      by_cases hc : cancel d.polls = true
      · rw [handleAll_cancel_eq cancel d hc] at h
        injection h with he hd'
        subst hd'
        exact hinv
      · have hc' : cancel d.polls = false := by simpa using hc
        have hez : d.iter = IPos.eos := by
          cases hit : d.iter <;> rw [hit] at hsz <;> simp [IPos.size] at hsz <;>
            first | rfl | omega
        have hv : d.iter.value = (none, none) := by rw [hez]; rfl
        rw [handleAll_nilCase cancel d hc' hv] at h
        injection h with he hd'
        subst hd'
        exact hinv
  | succ n ih =>
      intro d hsz hinv e d' h
      by_cases hc : cancel d.polls = true
      · rw [handleAll_cancel_eq cancel d hc] at h
        injection h with he hd'
        subst hd'
        exact hinv
      · have hc' : cancel d.polls = false := by simpa using hc
        rcases hv : d.iter.value with ⟨o1, o2⟩
        cases o1 with
        | some v =>
            rcases hn : d.iter.next with ⟨nf, it'⟩
            have hit' : it' = (d.iter.next).2 := by rw [hn]
            have hinv' := InvD_record_step d v o2
              (moveBaseToGEKey v.key d.base) hv hinv
            cases nf with
            | true =>
                rw [handleAll_record_cont cancel d v o2
                  (moveBaseToGEKey v.key d.base) _ it' hc' hv rfl rfl hn] at h
                have hlt := size_next_lt_of_true d.iter it' hn
                have hle : it'.size ≤ n := Nat.le_of_lt_succ (Nat.lt_of_lt_of_le hlt hsz)
                exact ih ⟨it', _, _, _⟩ hle (by rw [hit']; exact hinv') e d' h
            | false =>
                rw [handleAll_record_stop cancel d v o2
                  (moveBaseToGEKey v.key d.base) _ it' hc' hv rfl rfl hn] at h
                injection h with he hd'
                subst hd'
                rw [hit']
                exact hinv'
        | none =>
            cases o2 with
            | some ir =>
                rcases hn : d.iter.nextRange with ⟨nf, it'⟩
                have hit' : it' = (d.iter.nextRange).2 := by rw [hn]
                have hinv' := InvD_range_step d ir
                  (moveBaseToGERange ir.rng.minKey d.base) hv hinv
                cases nf with
                | true =>
                    rw [handleAll_range_cont cancel d ir
                      (moveBaseToGERange ir.rng.minKey d.base) _ it' hc' hv rfl rfl
                      hn] at h
                    have hlt := size_nextRange_lt_of_true d.iter it' hn
                    have hle : it'.size ≤ n :=
                      Nat.le_of_lt_succ (Nat.lt_of_lt_of_le hlt hsz)
                    exact ih ⟨it', _, _, _⟩ hle (by rw [hit']; exact hinv') e d' h
                | false =>
                    rw [handleAll_range_stop cancel d ir
                      (moveBaseToGERange ir.rng.minKey d.base) _ it' hc' hv rfl rfl
                      hn] at h
                    injection h with he hd'
                    subst hd'
                    rw [hit']
                    exact hinv'
            | none =>
                rw [handleAll_nilCase cancel d hc' hv] at h
                injection h with he hd'
                subst hd'
                exact hinv

theorem mergeLoop_inv_aux (cancel : Nat → Bool) :
    ∀ (n : Nat) (st : MState), st.source.size + st.dest.size ≤ n → InvS st →
    ∀ e st', mergeLoop cancel st = (e, st') →
    List.Pairwise keyBelow (emittedKeys st'.output) := by
  intro n
  induction n with
  | zero =>
      intro st hsz hinv e st' h
      -- with zero remaining size neither side can be mid-stream, but the
      -- argument below does not need that: handle all loop exits directly
      rcases hS : st.haveSource with _ | _ <;> rcases hD : st.haveDest with _ | _
      · rw [mergeLoop_done cancel st hS hD] at h
        injection h with he hst
        subst hst
        exact hinv.1
      · rcases hall : handleAll cancel ⟨st.dest, st.base, st.output, st.polls⟩
          with ⟨e1, dfin⟩
        have hinvd : InvD ⟨st.dest, st.base, st.output, st.polls⟩ :=
          ⟨hinv.1, hinv.2.2.1, hinv.2.2.2.2.1⟩
        have hfin := handleAll_inv_aux cancel st.dest.size _ (Nat.le_refl _)
          hinvd e1 dfin hall
        cases e1 with
        | none =>
            rw [mergeLoop_drainD_ok cancel st dfin hS hD hall] at h
            injection h with he hst
            subst hst
            exact hfin.1
        | some e2 =>
            rw [mergeLoop_drainD_err cancel st dfin e2 hS hD hall] at h
            injection h with he hst
            subst hst
            exact hfin.1
      · rcases hall : handleAll cancel ⟨st.source, st.base, st.output, st.polls⟩
          with ⟨e1, dfin⟩
        have hinvd : InvD ⟨st.source, st.base, st.output, st.polls⟩ :=
          ⟨hinv.1, hinv.2.1, hinv.2.2.2.1⟩
        have hfin := handleAll_inv_aux cancel st.source.size _ (Nat.le_refl _)
          hinvd e1 dfin hall
        cases e1 with
        | none =>
            rw [mergeLoop_drainS_ok cancel st dfin hS hD hall] at h
            injection h with he hst
            subst hst
            exact hfin.1
        | some e2 =>
            rw [mergeLoop_drainS_err cancel st dfin e2 hS hD hall] at h
            injection h with he hst
            subst hst
            exact hfin.1
      · -- both sides live: a step must run, yet the measure is zero;
        -- the step lemma still applies since it only needs the equation
        rcases hc : cancel st.polls with _ | _
        · rcases hstep : mergeStep { st with polls := st.polls + 1 } with ⟨e1, st1⟩
          cases e1 with
          | none =>
              have hlt := mergeStep_dec _ _ hstep
              simp only at hlt
              omega
          | some e2 =>
              rw [mergeLoop_err cancel st st1 e2 hS hD hc hstep] at h
              injection h with he hst
              subst hst
              have hinv1 : InvS { st with polls := st.polls + 1 } := hinv
              exact (mergeStep_inv _ _ _ hinv1 hstep).1
        · rw [mergeLoop_cancelled_eq cancel st hS hD hc] at h
          injection h with he hst
          subst hst
          exact hinv.1
  | succ n ih =>
      intro st hsz hinv e st' h
      rcases hS : st.haveSource with _ | _ <;> rcases hD : st.haveDest with _ | _
      · rw [mergeLoop_done cancel st hS hD] at h
        injection h with he hst
        subst hst
        exact hinv.1
      · rcases hall : handleAll cancel ⟨st.dest, st.base, st.output, st.polls⟩
          with ⟨e1, dfin⟩
        have hinvd : InvD ⟨st.dest, st.base, st.output, st.polls⟩ :=
          ⟨hinv.1, hinv.2.2.1, hinv.2.2.2.2.1⟩
        have hfin := handleAll_inv_aux cancel st.dest.size _ (Nat.le_refl _)
          hinvd e1 dfin hall
        cases e1 with
        | none =>
            rw [mergeLoop_drainD_ok cancel st dfin hS hD hall] at h
            injection h with he hst
            subst hst
            exact hfin.1
        | some e2 =>
            rw [mergeLoop_drainD_err cancel st dfin e2 hS hD hall] at h
            injection h with he hst
            subst hst
            exact hfin.1
      · rcases hall : handleAll cancel ⟨st.source, st.base, st.output, st.polls⟩
          with ⟨e1, dfin⟩
        have hinvd : InvD ⟨st.source, st.base, st.output, st.polls⟩ :=
          ⟨hinv.1, hinv.2.1, hinv.2.2.2.1⟩
        have hfin := handleAll_inv_aux cancel st.source.size _ (Nat.le_refl _)
          hinvd e1 dfin hall
        cases e1 with
        | none =>
            rw [mergeLoop_drainS_ok cancel st dfin hS hD hall] at h
            injection h with he hst
            subst hst
            exact hfin.1
        | some e2 =>
            rw [mergeLoop_drainS_err cancel st dfin e2 hS hD hall] at h
            injection h with he hst
            subst hst
            exact hfin.1
      · rcases hc : cancel st.polls with _ | _
        · rcases hstep : mergeStep { st with polls := st.polls + 1 } with ⟨e1, st1⟩
          have hinv1 : InvS { st with polls := st.polls + 1 } := hinv
          cases e1 with
          | none =>
              rw [mergeLoop_cont cancel st st1 hS hD hc hstep] at h
              have hlt := mergeStep_dec _ _ hstep
              simp only at hlt
              have hle : st1.source.size + st1.dest.size ≤ n := by omega
              exact ih st1 hle (mergeStep_inv _ _ _ hinv1 hstep) e st' h
          | some e2 =>
              rw [mergeLoop_err cancel st st1 e2 hS hD hc hstep] at h
              injection h with he hst
              subst hst
              exact (mergeStep_inv _ _ _ hinv1 hstep).1
        · rw [mergeLoop_cancelled_eq cancel st hS hD hc] at h
          injection h with he hst
          subst hst
          exact hinv.1

/-- C3: for every input triple satisfying the §3 invariants (source and
dest contents well-formed, and ranges with equal ids equal across the two
sides — invariant 3), the key sequence the whole merge call emits to the
writer (record keys of every `WriteRange`, and the keys of every
`WriteRecord`, concatenated in call order) is strictly increasing in
byte-wise lexicographic order; in particular no key is emitted twice.
The base iterator needs no hypothesis: it only steers branch selection. -/
theorem c3_emitted_keys_strictly_increasing (cancel : Nat → Bool)
    (baseData sourceData destData : List RangeData)
    (hs : wfRanges sourceData) (hd : wfRanges destData)
    (hagree : ∀ r1 ∈ sourceData, ∀ r2 ∈ destData,
      r1.rng.id = r2.rng.id → r1 = r2) :
    List.Pairwise keyBelow
      (emittedKeys (mergeRun cancel baseData sourceData destData).2.output) := by
  have heq : mergeRun cancel baseData sourceData destData =
      mergeLoop cancel ⟨((IPos.start baseData).next).2,
        ((IPos.start sourceData).next).2, ((IPos.start destData).next).2,
        ((IPos.start sourceData).next).1, ((IPos.start destData).next).1,
        [], 0⟩ := rfl
  have hinv : InvS ⟨((IPos.start baseData).next).2,
      ((IPos.start sourceData).next).2, ((IPos.start destData).next).2,
      ((IPos.start sourceData).next).1, ((IPos.start destData).next).1,
      [], 0⟩ := by
    refine ⟨by simp [emittedKeys], WFpos_next hs, WFpos_next hd, ?_, ?_, ?_⟩
    · intro k1 hk1 w hw
      simp [emittedKeys] at hk1
    · intro k1 hk1 w hw
      simp [emittedKeys] at hk1
    · intro r1 hr1 r2 hr2 hid
      have h1 : r1 ∈ (IPos.start sourceData).remRD :=
        remRD_next_sub _ r1 hr1
      have h2 : r2 ∈ (IPos.start destData).remRD :=
        remRD_next_sub _ r2 hr2
      exact hagree r1 h1 r2 h2 hid
  rcases hres : mergeRun cancel baseData sourceData destData with ⟨e, stfin⟩
  rw [heq] at hres
  exact mergeLoop_inv_aux cancel _ _ (Nat.le_refl _) hinv e stfin hres

/-- Source contents for the C3 witness: two ranges with two records. -/
def c3wSrc : List RangeData :=
  [⟨⟨"s1", [0], [1]⟩, [⟨[0], [1], []⟩, ⟨[1], [2], []⟩]⟩,
   ⟨⟨"s2", [4], [4]⟩, [⟨[4], [3], []⟩]⟩]

/-- Dest contents for the C3 witness. -/
def c3wDst : List RangeData :=
  [⟨⟨"d1", [2], [3]⟩, [⟨[2], [5], []⟩, ⟨[3], [6], []⟩]⟩]

theorem c3_witness :
    (wfRanges c3wSrc ∧ wfRanges c3wDst ∧
      (∀ r1 ∈ c3wSrc, ∀ r2 ∈ c3wDst, r1.rng.id = r2.rng.id → r1 = r2)) ∧
    List.Pairwise keyBelow
      (emittedKeys (mergeRun noCancel [] c3wSrc c3wDst).2.output) :=
  ⟨⟨by decide, by decide, by decide⟩,
    c3_emitted_keys_strictly_increasing noCancel [] c3wSrc c3wDst
      (by decide) (by decide) (by decide)⟩
